import Mathlib

/-
  Verification development for the igneous chunked-skeletonization core
  (igneous.tasks.skeletonization).  The repository ships only the package
  re-export file; the modules `definitions`, `skeletonization`, `postprocess`
  and `tasks` are not present, so every definition below is modelled from the
  specification document of the pipeline (data model §3, Skeletonizer §4.1,
  Cropper §4.2, Merger §4.3, Trimmer §4.4, error design §7).
  Definitions come first, followed by the supporting lemmas and the claim
  theorems with their witnesses.
-/

/-- Modelled from the spec: error conditions of §7 (the modules defining these
exception classes are missing from the source tree). -/
inductive SkelError where
  | InvalidInputError
  | ObjectMismatchError
  | FragmentCorruptError
  | MergeConsistencyError
deriving DecidableEq

/-- Modelled from the spec: a node record of the `Nodes` collection (§3): a 3D
coordinate in the global integer voxel frame, a scalar radius estimate and a
stable integer id unique within a Skeleton. -/
structure Node where
  nid : Nat
  x : Int
  y : Int
  z : Int
  radius : ℚ
deriving DecidableEq

def defaultNode : Node := ⟨0, 0, 0, 0, 0⟩

/-- Modelled from the spec: a `Skeleton` (§3) owns one node collection and one
edge set (unordered id pairs, stored normalized with first component smaller)
plus the object id it represents. -/
structure Skeleton where
  objectId : Nat
  nodes : List Node
  edges : List (Nat × Nat)
deriving DecidableEq

def Skeleton.nodeIds (s : Skeleton) : List Nat := s.nodes.map Node.nid

/-- Normalize an unordered edge pair so the smaller id comes first. -/
def normEdge (e : Nat × Nat) : Nat × Nat := if e.1 ≤ e.2 then e else (e.2, e.1)

/-- An edge is well-formed for a given id list when it is strictly normalized
(no self-loop) and both endpoints name existing nodes. -/
def goodEdge (ids : List Nat) (e : Nat × Nat) : Bool :=
  decide (e.1 < e.2) && decide (e.1 ∈ ids) && decide (e.2 ∈ ids)

/-- Modelled from the spec: the edge-set smart constructor every component
uses; it normalizes pairs, drops self-loops and dangling endpoints, and
removes duplicates — the data-model invariant of §3. -/
def mkEdges (ids : List Nat) (raw : List (Nat × Nat)) : List (Nat × Nat) :=
  ((raw.map normEdge).filter (goodEdge ids)).dedup

/-- Edge-validity invariant of §3: every edge endpoint resolves to an existing
node, pairs are strictly normalized (hence no self-loops), no duplicates, and
node ids are unique. -/
def Skeleton.Valid (s : Skeleton) : Prop :=
  (∀ e ∈ s.edges, goodEdge s.nodeIds e = true) ∧ s.edges.Nodup ∧ s.nodeIds.Nodup

instance (s : Skeleton) : Decidable s.Valid := by
  unfold Skeleton.Valid; infer_instance

/- ## Cropper (§4.2) -/

/-- Chunk or volume bounds in global voxel coordinates, half-open boxes
`[lo, hi)` componentwise. -/
structure Bounds where
  lox : Int
  loy : Int
  loz : Int
  hix : Int
  hiy : Int
  hiz : Int
deriving DecidableEq

/-- The six axis-aligned faces of a chunk. -/
inductive Face where
  | xlo | xhi | ylo | yhi | zlo | zhi
deriving DecidableEq, Fintype

def faceList : List Face := [.xlo, .xhi, .ylo, .yhi, .zlo, .zhi]

/-- A node lies within `mg` voxels of the given chunk face. -/
def withinFace (cb : Bounds) (mg : Nat) (nd : Node) : Face → Bool
  | .xlo => decide (nd.x < cb.lox + mg)
  | .xhi => decide (cb.hix - mg ≤ nd.x)
  | .ylo => decide (nd.y < cb.loy + mg)
  | .yhi => decide (cb.hiy - mg ≤ nd.y)
  | .zlo => decide (nd.z < cb.loz + mg)
  | .zhi => decide (cb.hiz - mg ≤ nd.z)

/-- A chunk face is a true global-volume boundary face (not an interior seam)
when it coincides with the corresponding face of the global bounds. -/
def globalFace (cb gb : Bounds) : Face → Bool
  | .xlo => decide (cb.lox = gb.lox)
  | .xhi => decide (cb.hix = gb.hix)
  | .ylo => decide (cb.loy = gb.loy)
  | .yhi => decide (cb.hiy = gb.hiy)
  | .zlo => decide (cb.loz = gb.loz)
  | .zhi => decide (cb.hiz = gb.hiz)

/-- A node is within the crop margin of some interior seam face. -/
def nearSeam (cb gb : Bounds) (mg : Nat) (nd : Node) : Bool :=
  faceList.any (fun f => !globalFace cb gb f && withinFace cb mg nd f)

/-- Modelled from the spec: `crop(skeleton, chunk_bounds, margin)` (§4.2, the
`postprocess` module is missing from the source tree).  Removes nodes within
`margin` voxels of an interior seam face (a chunk face that is not also a
global volume boundary face) together with their incident edges; an edge is
removed whenever either endpoint is removed. -/
def crop_skeleton (s : Skeleton) (cb gb : Bounds) (mg : Nat) : Skeleton :=
  let keep := s.nodes.filter (fun nd => !nearSeam cb gb mg nd)
  { objectId := s.objectId, nodes := keep, edges := mkEdges (keep.map Node.nid) s.edges }

/- ## Graph helpers on skeletons -/

/-- Neighbor ids of a node id: the other endpoints of its incident edges. -/
def Skeleton.nbrIds (s : Skeleton) (a : Nat) : List Nat :=
  s.edges.filterMap (fun e =>
    if e.1 = a then some e.2 else if e.2 = a then some e.1 else none)

/-- Degree of a node id: the number of incident edges. -/
def Skeleton.degreeOf (s : Skeleton) (a : Nat) : Nat := (s.nbrIds a).length

/-- Boolean adjacency between two node ids via the edge set. -/
def Skeleton.adjB (s : Skeleton) (a b : Nat) : Bool :=
  s.edges.any (fun e => (decide (e.1 = a) && decide (e.2 = b)) ||
                        (decide (e.1 = b) && decide (e.2 = a)))

/-- Connectivity between node ids: reflexive-transitive closure of adjacency. -/
def Reach (s : Skeleton) (a b : Nat) : Prop :=
  Relation.ReflTransGen (fun x y => s.adjB x y = true) a b

/- ## Trimmer (§4.4) -/

/-- Look up a node record by id (default record when absent). -/
def Skeleton.nodeById (s : Skeleton) (a : Nat) : Node :=
  (s.nodes.find? (fun nd => nd.nid == a)).getD defaultNode

/-- Physical length of an edge: L1 distance between its endpoint coordinates. -/
def Skeleton.edgeLen (s : Skeleton) (a b : Nat) : ℚ :=
  let p := s.nodeById a
  let q := s.nodeById b
  (((p.x - q.x).natAbs + (p.y - q.y).natAbs + (p.z - q.z).natAbs : ℕ) : ℚ)

/-- Modelled from the spec: walk a terminal branch upward from a leaf (§4.4).
`prev`/`cur` are the previous and current node id, `acc` the branch nodes
gathered so far (starting from the leaf), `len` the accumulated physical
length.  Returns `some (branchNodes, branchPoint, totalLen)` when the walk
reaches a node of degree ≥ 3 (the branch point, excluded from the branch);
returns `none` when it reaches another leaf or an isolated end (a pure path,
which is never trimmed), when the walk would revisit a node, or when fuel
runs out. -/
def walkB (s : Skeleton) : Nat → Nat → Nat → List Nat → ℚ → Option (List Nat × Nat × ℚ)
  | 0, _, _, _, _ => none
  | f + 1, prev, cur, acc, len =>
    if cur ∈ acc then none
    else if 3 ≤ s.degreeOf cur then some (acc, cur, len)
    else if s.degreeOf cur = 2 then
      match (s.nbrIds cur).filter (fun b => decide (b ≠ prev)) with
      | [next] => walkB s f cur next (acc ++ [cur]) (len + s.edgeLen cur next)
      | _ => none
    else none

/-- Modelled from the spec: the trimmable branch rooted at node id `a`, if
any (§4.4).  `a` must be a leaf (degree 1); its branch is returned when the
walk ends at a branch point and the cumulative length is below `t`. -/
def branchOf (s : Skeleton) (t : ℚ) (a : Nat) : Option (List Nat) :=
  match s.nbrIds a with
  | [c] =>
    match walkB s (s.nodes.length + 1) a c [a] (s.edgeLen a c) with
    | some (res, _, len) => if len < t then some res else none
    | none => none
  | _ => none

/-- Remove the given node ids and all their incident edges. -/
def removeNodes (s : Skeleton) (res : List Nat) : Skeleton :=
  { objectId := s.objectId,
    nodes := s.nodes.filter (fun nd => decide (nd.nid ∉ res)),
    edges := s.edges.filter (fun e => decide (e.1 ∉ res) && decide (e.2 ∉ res)) }

/-- Modelled from the spec: one trimming iteration (§4.4): find the first leaf
whose terminal branch is shorter than `t` and remove that branch (nodes and
incident edges), or report that no such branch remains. -/
def trimStep (s : Skeleton) (t : ℚ) : Option Skeleton :=
  match (s.nodes.map Node.nid).findSome? (branchOf s t) with
  | some res => some (removeNodes s res)
  | none => none

/-- Iterate `trimStep` until no short terminal branch remains (fuel-bounded;
each iteration removes at least one node, so `s.nodes.length` iterations
always reach the fixed point). -/
def trimLoop (t : ℚ) : Nat → Skeleton → Skeleton
  | 0, s => s
  | f + 1, s =>
    match trimStep s t with
    | none => s
    | some s2 => trimLoop t f s2

/-- Modelled from the spec: `trim(skeleton, min_branch_length)` (§4.4, the
`postprocess` module is missing from the source tree).  Iteratively removes
terminal branches whose cumulative physical length is below the threshold;
components without a branch point are left as they are. -/
def trim_skeleton (s : Skeleton) (t : ℚ) : Skeleton := trimLoop t s.nodes.length s

/- ## Bounded closure machinery (used by the Merger's ε-clustering) -/

/-- One expansion step of a neighborhood closure: add all neighbors. -/
def stepB (nbr : Nat → List Nat) (S : Finset Nat) : Finset Nat :=
  S ∪ S.biUnion (fun p => (nbr p).toFinset)

/-- Iterated neighborhood closure (`k`-step ball around the start set). -/
def ballB (nbr : Nat → List Nat) : Nat → Finset Nat → Finset Nat
  | 0, S => S
  | k + 1, S => stepB nbr (ballB nbr k S)

/- ## Merger (§4.3) -/

/-- Internal union-node record of the Merger: the originating fragment index,
the node's coordinates and its radius estimate. -/
structure MNode where
  frag : Nat
  mx : Int
  my : Int
  mz : Int
  mrad : ℚ
deriving DecidableEq

def defaultMNode : MNode := ⟨0, 0, 0, 0, 0⟩

def mnodeAt (ns : List MNode) (p : Nat) : MNode := ns.getD p defaultMNode

/-- Coordinate distance (L1) between two union nodes. -/
def mdist (a b : MNode) : ℚ :=
  (((a.mx - b.mx).natAbs + (a.my - b.my).natAbs + (a.mz - b.mz).natAbs : ℕ) : ℚ)

/-- Modelled from the spec: union step (1) of §4.3 — all fragment nodes in one
list, renumbered with globally unique dense indices (fragment order, then node
order), each tagged with its originating fragment. -/
def unionNodes (frags : List Skeleton) : List MNode :=
  frags.enum.flatMap (fun ks => ks.2.nodes.map (fun nd => ⟨ks.1, nd.x, nd.y, nd.z, nd.radius⟩))

/-- The fragment-local-id → global-id map of §4.3 step (1): the global index of
the node with local id `a` of fragment `k`. -/
def globId (frags : List Skeleton) (k : Nat) (a : Nat) : Option Nat :=
  match frags.get? k with
  | none => none
  | some s =>
    match (s.nodes.map Node.nid).findIdx? (fun b => b == a) with
    | none => none
    | some pos => some (((frags.take k).map (fun f => f.nodes.length)).sum + pos)

/-- All fragment edges translated to global node indices (edges with dangling
local endpoints are dropped). -/
def unionEdges (frags : List Skeleton) : List (Nat × Nat) :=
  frags.enum.flatMap (fun ks => ks.2.edges.filterMap (fun e =>
    match globId frags ks.1 e.1, globId frags ks.1 e.2 with
    | some a, some b => some (a, b)
    | _, _ => none))

/-- Modelled from the spec: two union nodes are candidates for coalescing when
they come from different fragments and their coordinates are within the
`merge_epsilon` tolerance (§4.3 step (2)). -/
def adjM (eps : ℚ) (ns : List MNode) (p q : Nat) : Bool :=
  decide (p ≠ q) && decide (p < ns.length) && decide (q < ns.length) &&
  decide ((mnodeAt ns p).frag ≠ (mnodeAt ns q).frag) &&
  decide (mdist (mnodeAt ns p) (mnodeAt ns q) ≤ eps)

def nbrsM (eps : ℚ) (ns : List MNode) (p : Nat) : List Nat :=
  (List.range ns.length).filter (adjM eps ns p)

/-- Modelled from the spec: the coalescing map of §4.3 step (2).  Nodes are
coalesced along chains of within-ε cross-fragment coincidences (the closure of
the candidate relation), and each group is represented by its smallest global
index — a fixed total order, keeping the merge deterministic. -/
def reprM (eps : ℚ) (ns : List MNode) (p : Nat) : Nat :=
  WithTop.untop' p (ballB (nbrsM eps ns) ns.length {p}).min

/-- The global indices coalesced into representative `r`. -/
def clusterOf (eps : ℚ) (ns : List MNode) (r : Nat) : List Nat :=
  (List.range ns.length).filter (fun q => decide (reprM eps ns q = r))

/-- Modelled from the spec: the coalesced node keeps the higher (maximum)
radius estimate of the nodes merged into it (§4.3 step (2)). -/
def clusterRadius (eps : ℚ) (ns : List MNode) (r : Nat) : ℚ :=
  ((clusterOf eps ns r).map (fun q => (mnodeAt ns q).mrad)).foldr max (mnodeAt ns r).mrad

/-- Output nodes of the merge: one node per representative index. -/
def mergedNodes (eps : ℚ) (ns : List MNode) : List Node :=
  ((List.range ns.length).filter (fun p => decide (reprM eps ns p = p))).map (fun r =>
    { nid := r, x := (mnodeAt ns r).mx, y := (mnodeAt ns r).my, z := (mnodeAt ns r).mz,
      radius := clusterRadius eps ns r })

/-- Modelled from the spec: steps (2)–(3) of §4.3 on edges — every union edge
is rewritten through the coalescing map, then duplicates, self-loops created
by coalescing, and dangling pairs are removed. -/
def mergedEdges (eps : ℚ) (frags : List Skeleton) (ns : List MNode) : List (Nat × Nat) :=
  mkEdges ((mergedNodes eps ns).map Node.nid)
    ((unionEdges frags).map (fun e => (reprM eps ns e.1, reprM eps ns e.2)))

/-- The fragment set references more than one distinct object id. -/
def oidMismatch (frags : List Skeleton) : Bool :=
  frags.any (fun f => frags.any (fun g => decide (f.objectId ≠ g.objectId)))

/-- Modelled from the spec: `merge(fragments) -> Skeleton` (§4.3, the
`postprocess` module is missing from the source tree).  Fails with
`ObjectMismatchError` when the fragments reference more than one distinct
object id (§7); otherwise unions the fragments, coalesces within-ε
cross-fragment nodes keeping the maximum radius, and rewrites and sanitizes
the edge set. -/
def merge_skeletons (eps : ℚ) (frags : List Skeleton) : Except SkelError Skeleton :=
  if oidMismatch frags then .error .ObjectMismatchError
  else
    let ns := unionNodes frags
    .ok { objectId := (frags.head?.map Skeleton.objectId).getD 0,
          nodes := mergedNodes eps ns,
          edges := mergedEdges eps frags ns }

/- ## Skeletonizer (§4.1) -/

/-- Modelled from the spec: a `VoxelMask` (§3, §6) — a dense 3D occupancy
grid (row-major linear data, one entry per voxel: 0 background, 1 foreground)
with a global integer offset, a shape and an anisotropic voxel-spacing
vector.  The spacing enters the distance-transform weights; output node
coordinates live in the global integer voxel frame (offset + position). -/
structure VoxelMask where
  ox : Int
  oy : Int
  oz : Int
  sx : Nat
  sy : Nat
  sz : Nat
  wx : ℚ
  wy : ℚ
  wz : ℚ
  data : List Nat
deriving DecidableEq

def VoxelMask.volume (m : VoxelMask) : Nat := m.sx * m.sy * m.sz

/-- Modelled from the spec: validity of a mask (§7): it is invalid when it is
zero-sized (empty shape), has the wrong dimensionality (data length does not
match the 3D shape), or holds non-boolean/non-label content (entries other
than 0/1). -/
def VoxelMask.isValid (m : VoxelMask) : Bool :=
  decide (m.volume ≠ 0) && decide (m.data.length = m.volume) && m.data.all (fun d => d ≤ 1)

/-- Linear indices of the foreground voxels, in ascending order — the fixed
total order used for every tie-break. -/
def fgIdxs (m : VoxelMask) : List Nat :=
  (List.range m.volume).filter (fun i => decide (m.data.getD i 0 = 1))

def bgIdxs (m : VoxelMask) : List Nat :=
  (List.range m.volume).filter (fun i => decide (m.data.getD i 0 ≠ 1))

def vxOf (m : VoxelMask) (i : Nat) : Nat := i % m.sx

def vyOf (m : VoxelMask) (i : Nat) : Nat := (i / m.sx) % m.sy

def vzOf (m : VoxelMask) (i : Nat) : Nat := i / (m.sx * m.sy)

def natDiff (a b : Nat) : Nat := (a - b) + (b - a)

/-- Spacing-weighted L1 distance between two voxel centers (the anisotropic
distance of the distance transform). -/
def voxDist (m : VoxelMask) (i j : Nat) : ℚ :=
  m.wx * (natDiff (vxOf m i) (vxOf m j) : ℕ) +
  m.wy * (natDiff (vyOf m i) (vyOf m j) : ℕ) +
  m.wz * (natDiff (vzOf m i) (vzOf m j) : ℕ)

/-- Modelled from the spec: the distance transform (§4.1 step (1)): distance
from a voxel to the nearest background voxel, respecting the anisotropic
spacing; when no background voxel exists the diameter bound is used. -/
def dtAt (m : VoxelMask) (i : Nat) : ℚ :=
  match (bgIdxs m).map (voxDist m i) with
  | [] => ((m.sx + m.sy + m.sz : ℕ) : ℚ) * (m.wx + m.wy + m.wz) + 1
  | c :: cs => cs.foldl min c

def dtMax (m : VoxelMask) : ℚ := ((fgIdxs m).map (dtAt m)).foldr max 0

/-- Path-search step cost of entering a voxel: voxels far from the boundary
(large distance value) are cheap, pulling paths toward the skeletal axis
(§4.1 step (3)). -/
def stepCost (m : VoxelMask) (v : Nat) : ℚ := dtMax m + 1 - dtAt m v

def coordIdx (m : VoxelMask) (x y z : Nat) : Nat := x + m.sx * (y + m.sy * z)

/-- The up-to-six axis neighbors of a voxel inside the grid bounds. -/
def nbrCands (m : VoxelMask) (i : Nat) : List Nat :=
  let x := vxOf m i
  let y := vyOf m i
  let z := vzOf m i
  (if x + 1 < m.sx then [coordIdx m (x + 1) y z] else []) ++
  (if 0 < x then [coordIdx m (x - 1) y z] else []) ++
  (if y + 1 < m.sy then [coordIdx m x (y + 1) z] else []) ++
  (if 0 < y then [coordIdx m x (y - 1) z] else []) ++
  (if z + 1 < m.sz then [coordIdx m x y (z + 1)] else []) ++
  (if 0 < z then [coordIdx m x y (z - 1)] else [])

/-- Foreground-graph neighbors of a foreground voxel. -/
def voxNbrs (m : VoxelMask) (i : Nat) : List Nat :=
  (nbrCands m i).filter (fun j => decide (j ≠ i) && decide (j ∈ fgIdxs m))

/-- Argument of maximum value over a list, with the fixed tie-break: the
earliest (smallest) index wins. -/
def argmaxQ (f : Nat → ℚ) : List Nat → Option (Nat × ℚ)
  | [] => none
  | a :: rest =>
    match argmaxQ f rest with
    | none => some (a, f a)
    | some (b, fb) => if f a < fb then some (b, fb) else some (a, f a)

/-- A settled entry of the path search: voxel index, path cost from the root,
and the root-to-voxel path. -/
abbrev DijkEntry : Type := Nat × ℚ × List Nat

def settledCost (d : List DijkEntry) (v : Nat) : Option ℚ :=
  (d.find? (fun c => c.1 == v)).map (fun c => c.2.1)

def pathOf (d : List DijkEntry) (v : Nat) : List Nat :=
  ((d.find? (fun c => c.1 == v)).map (fun c => c.2.2)).getD []

/-- Candidate relaxations: unsettled foreground neighbors of settled voxels. -/
def dijkCands (m : VoxelMask) (settled : List DijkEntry) : List DijkEntry :=
  settled.flatMap (fun u => (voxNbrs m u.1).filterMap (fun w =>
    if settled.any (fun c => c.1 == w) then none
    else some (w, u.2.1 + stepCost m w, u.2.2 ++ [w])))

/-- Pick the minimum-cost candidate (ties broken by smaller voxel index — a
fixed total order). -/
def pickMin (cands : List DijkEntry) : Option DijkEntry :=
  cands.foldl (fun acc c =>
    match acc with
    | none => some c
    | some b => if c.2.1 < b.2.1 ∨ (c.2.1 = b.2.1 ∧ c.1 < b.1) then some c else some b) none

def dijkStep (m : VoxelMask) (settled : List DijkEntry) : Option DijkEntry :=
  pickMin (dijkCands m settled)

def dijkLoop (m : VoxelMask) : Nat → List DijkEntry → List DijkEntry
  | 0, settled => settled
  | f + 1, settled =>
    match dijkStep m settled with
    | none => settled
    | some c => dijkLoop m f (settled ++ [c])

/-- Modelled from the spec: the rooted shortest-path search over the
foreground voxel graph (§4.1 step (3)), Dijkstra-style with the boundary
penalty `stepCost`. -/
def dijkstra (m : VoxelMask) (root : Nat) : List DijkEntry :=
  dijkLoop m m.volume [(root, (0 : ℚ), [root])]

/-- Accumulator of the skeletonization main loop: invalidated voxels,
collected skeleton voxels (insertion order), and collected voxel edges. -/
structure TState where
  invalid : List Nat
  nodesA : List Nat
  edgesA : List (Nat × Nat)

def insertAll (l : List Nat) (xs : List Nat) : List Nat :=
  xs.foldl (fun acc x => if x ∈ acc then acc else acc ++ [x]) l

def pathEdges (p : List Nat) : List (Nat × Nat) := p.zip p.tail

/-- Configuration surface of the pipeline (§6). -/
structure SkelConfig where
  scale : ℚ
  invConst : ℚ
  min_path_length : ℚ
  merge_epsilon : ℚ
  min_branch_length : ℚ
  downsample : Bool
deriving DecidableEq

/-- Modelled from the spec: scale-invariant invalidation (§4.1 step (3)):
every foreground voxel within `scale * radius + const` of a traced path
voxel is erased. -/
def invalidatedBy (m : VoxelMask) (cfg : SkelConfig) (path : List Nat) : List Nat :=
  (fgIdxs m).filter (fun w =>
    path.any (fun p => decide (voxDist m p w ≤ cfg.scale * dtAt m p + cfg.invConst)))

/-- Modelled from the spec: the farthest-point path-tracing loop of §4.1
step (3)-(4): find the unvisited reachable foreground voxel farthest from
the root by path cost (ties broken by smallest linear index), stop when no
such voxel exceeds `min_path_length`, otherwise trace its root path, add the
path voxels as nodes/edges and invalidate around the path. -/
def skelLoop (m : VoxelMask) (cfg : SkelConfig) (dij : List DijkEntry) :
    Nat → TState → TState
  | 0, st => st
  | f + 1, st =>
    let unvis := (fgIdxs m).filter (fun i => decide (i ∉ st.invalid))
    let cands := unvis.filter (fun i => (settledCost dij i).isSome)
    match argmaxQ (fun i => (settledCost dij i).getD 0) cands with
    | none => st
    | some (v, c) =>
      if c ≤ cfg.min_path_length then st
      else
        let path := pathOf dij v
        skelLoop m cfg dij f
          { invalid := v :: path ++ invalidatedBy m cfg path ++ st.invalid,
            nodesA := insertAll st.nodesA path,
            edgesA := st.edgesA ++ pathEdges path }

/-- Node record for a collected voxel: position `k` in the collection becomes
the dense node id, the coordinate is the voxel position in the global frame,
the radius is the distance-transform value. -/
def voxNode (m : VoxelMask) (k i : Nat) : Node :=
  { nid := k, x := m.ox + (vxOf m i : ℕ), y := m.oy + (vyOf m i : ℕ),
    z := m.oz + (vzOf m i : ℕ), radius := dtAt m i }

/-- Assemble the output skeleton from the loop state: dense ids by insertion
order, edges translated to ids and sanitized. -/
def finishSkeleton (m : VoxelMask) (st : TState) : Skeleton :=
  let vox := st.nodesA
  let nodes := vox.enum.map (fun pv => voxNode m pv.1 pv.2)
  { objectId := 0,
    nodes := nodes,
    edges := mkEdges (nodes.map Node.nid)
      (st.edgesA.map (fun e => (vox.findIdx (· == e.1), vox.findIdx (· == e.2)))) }

/-- The two neighbors of a degree-2 node, when it has exactly two. -/
def twoNbrs (s : Skeleton) (a : Nat) : Option (Nat × Nat) :=
  match s.nbrIds a with
  | [u, w] => some (u, w)
  | _ => none

/-- Exact colinearity of three points (cross product of the two segment
vectors vanishes). -/
def collin (a b c : Node) : Bool :=
  decide ((b.x - a.x) * (c.y - b.y) = (b.y - a.y) * (c.x - b.x)) &&
  decide ((b.x - a.x) * (c.z - b.z) = (b.z - a.z) * (c.x - b.x)) &&
  decide ((b.y - a.y) * (c.z - b.z) = (c.y - b.y) * (b.z - a.z))

/-- A node is a candidate for colinear down-sampling: degree 2 with distinct
colinear neighbors. -/
def dsRem0 (s : Skeleton) (nd : Node) : Bool :=
  match twoNbrs s nd.nid with
  | some (u, w) =>
    decide (u ≠ w) && collin (s.nodeById u) nd (s.nodeById w)
  | none => false

/-- Conservative single-pass selection: a node is removed only when neither
of its neighbors is itself a removal candidate, so bridged edges always land
on kept nodes. -/
def dsRem (s : Skeleton) (nd : Node) : Bool :=
  dsRem0 s nd && !((s.nbrIds nd.nid).any (fun b => dsRem0 s (s.nodeById b)))

/-- Modelled from the spec: optional colinear-chain down-sampling (§4.1
step (5)): drop interior colinear degree-2 nodes and bridge their neighbors. -/
def downsampleSkel (s : Skeleton) : Skeleton :=
  let keep := s.nodes.filter (fun nd => !dsRem s nd)
  let bridges := s.nodes.filterMap (fun nd => if dsRem s nd then twoNbrs s nd.nid else none)
  { objectId := s.objectId, nodes := keep,
    edges := mkEdges (keep.map Node.nid) (s.edges ++ bridges) }

def emptySkel : Skeleton := { objectId := 0, nodes := [], edges := [] }

/-- Modelled from the spec: `skeletonize(mask, config) -> Skeleton`
(§4.1; the `skeletonization` module is missing from the source tree).
Validates the mask (§7), computes the distance transform, picks the deepest
voxel as root (ties by smallest linear index), runs the farthest-point
path-tracing loop with scale-invariant invalidation, and assembles (and
optionally down-samples) the output skeleton; an empty mask yields the empty
skeleton. -/
def skeletonize (m : VoxelMask) (cfg : SkelConfig) : Except SkelError Skeleton :=
  if m.isValid then
    match argmaxQ (dtAt m) (fgIdxs m) with
    | none => .ok emptySkel
    | some (root, _) =>
      let dij := dijkstra m root
      let st := skelLoop m cfg dij m.volume { invalid := [], nodesA := [root], edgesA := [] }
      let s := finishSkeleton m st
      .ok (if cfg.downsample then downsampleSkel s else s)
  else .error .InvalidInputError

/- ## Concrete example data used by the witnesses -/

def exCfg : SkelConfig := ⟨2, 1, 0, 0, 0, false⟩

def exM0 : VoxelMask := ⟨0, 0, 0, 1, 1, 1, 1, 1, 1, [0]⟩

def exM1 : VoxelMask := ⟨5, 6, 7, 1, 1, 1, 1, 1, 1, [1]⟩

def exMbad : VoxelMask := ⟨0, 0, 0, 0, 1, 1, 1, 1, 1, []⟩

def exSkel : Skeleton := ⟨0, [⟨0, 0, 0, 0, 1⟩, ⟨1, 5, 0, 0, 1⟩], [(0, 1)]⟩

def exCb : Bounds := ⟨0, 0, 0, 10, 10, 10⟩

def exGb : Bounds := ⟨0, 0, 0, 20, 10, 10⟩

def exFragA : Skeleton := ⟨7, [⟨0, 0, 0, 0, 1⟩, ⟨1, 1, 0, 0, 2⟩], [(0, 1)]⟩

def exFragB : Skeleton := ⟨7, [⟨0, 1, 0, 0, 5⟩, ⟨1, 2, 0, 0, 3⟩], [(0, 1)]⟩

def exFragC : Skeleton := ⟨8, [], []⟩

def exMergeOut : Skeleton := ⟨7, [⟨0, 0, 0, 0, 1⟩, ⟨1, 1, 0, 0, 5⟩, ⟨3, 2, 0, 0, 3⟩], [(0, 1), (1, 3)]⟩

def exNode1 : Skeleton := ⟨0, [⟨0, 3, 3, 3, 1⟩], []⟩

/-- The output node produced by the Merger for representative index `r`. -/
def mergedNodeOf (eps : ℚ) (ns : List MNode) (r : Nat) : Node :=
  { nid := r, x := (mnodeAt ns r).mx, y := (mnodeAt ns r).my, z := (mnodeAt ns r).mz,
    radius := clusterRadius eps ns r }

theorem mkEdges_nodup (ids : List Nat) (raw : List (Nat × Nat)) :
    (mkEdges ids raw).Nodup := List.nodup_dedup _

theorem mkEdges_good (ids : List Nat) (raw : List (Nat × Nat)) :
    ∀ e ∈ mkEdges ids raw, goodEdge ids e = true := by
  intro e he
  have h1 : e ∈ (raw.map normEdge).filter (goodEdge ids) := (List.mem_dedup).1 he
  exact (List.mem_filter.1 h1).2

theorem mkEdges_nil (ids : List Nat) : mkEdges ids [] = [] := rfl

theorem mem_mkEdges (ids : List Nat) (raw : List (Nat × Nat)) (e : Nat × Nat) :
    e ∈ mkEdges ids raw ↔ (goodEdge ids e = true ∧ ∃ r ∈ raw, normEdge r = e) := by
  unfold mkEdges
  rw [List.mem_dedup, List.mem_filter, List.mem_map]
  tauto

theorem mem_faceList (f : Face) : f ∈ faceList := by cases f <;> simp [faceList]

theorem nearSeam_eq_false_iff (cb gb : Bounds) (mg : Nat) (nd : Node) :
    nearSeam cb gb mg nd = false ↔
      ∀ f : Face, withinFace cb mg nd f = true → globalFace cb gb f = true := by
  unfold nearSeam
  rw [← Bool.not_eq_true, List.any_eq_true]
  constructor
  · intro h f hw
    by_contra hg
    exact h ⟨f, mem_faceList f, by simp [hw, hg]⟩
  · rintro h ⟨f, _, hf⟩
    rw [Bool.and_eq_true, Bool.not_eq_true'] at hf
    rw [h f hf.2] at hf
    exact absurd hf.1 (by simp)

theorem crop_nodes_mem (s : Skeleton) (cb gb : Bounds) (mg : Nat) (nd : Node) :
    nd ∈ (crop_skeleton s cb gb mg).nodes ↔
      nd ∈ s.nodes ∧ nearSeam cb gb mg nd = false := by
  unfold crop_skeleton
  simp [List.mem_filter]

theorem adjB_symm (s : Skeleton) (a b : Nat) : s.adjB a b = s.adjB b a := by
  unfold Skeleton.adjB
  congr 1
  funext e
  by_cases h1 : e.1 = a <;> by_cases h2 : e.2 = b <;>
    by_cases h3 : e.1 = b <;> by_cases h4 : e.2 = a <;> simp [h1, h2, h3, h4]

theorem adjB_of_mem_nbrIds (s : Skeleton) (a b : Nat) (h : b ∈ s.nbrIds a) :
    s.adjB a b = true := by
  unfold Skeleton.nbrIds at h
  obtain ⟨e, he, hmap⟩ := List.mem_filterMap.1 h
  unfold Skeleton.adjB
  rw [List.any_eq_true]
  refine ⟨e, he, ?_⟩
  split at hmap
  · next h1 => rw [Option.some_inj] at hmap; simp [h1, hmap]
  · split at hmap
    · next h1 h2 => rw [Option.some_inj] at hmap; simp [h2, hmap]
    · exact absurd hmap (by simp)

theorem Reach.refl_self (s : Skeleton) (a : Nat) : Reach s a a :=
  Relation.ReflTransGen.refl

/-- Adjacency is monotone under an edge sublist. -/
theorem adjB_mono {s s2 : Skeleton} (hsub : s2.edges.Sublist s.edges) (a b : Nat)
    (h : s2.adjB a b = true) : s.adjB a b = true := by
  unfold Skeleton.adjB at h ⊢
  rw [List.any_eq_true] at h ⊢
  obtain ⟨e, he, hp⟩ := h
  exact ⟨e, hsub.mem he, hp⟩

theorem Reach_mono {s s2 : Skeleton} (hsub : s2.edges.Sublist s.edges) (a b : Nat)
    (h : Reach s2 a b) : Reach s a b := by
  induction h with
  | refl => exact Relation.ReflTransGen.refl
  | tail _ hstep ih => exact Relation.ReflTransGen.tail ih (adjB_mono hsub _ _ hstep)

theorem degreeOf_mono {s s2 : Skeleton} (hsub : s2.edges.Sublist s.edges) (a : Nat) :
    s2.degreeOf a ≤ s.degreeOf a := by
  unfold Skeleton.degreeOf Skeleton.nbrIds
  exact (hsub.filterMap _).length_le

/-- Generic evaluation aid: if a list is closed under adjacency and contains
`a`, it contains everything reachable from `a`. -/
theorem reach_mem_closed (s : Skeleton) (L : List Nat) (a b : Nat)
    (ha : a ∈ L) (hcl : ∀ x ∈ L, ∀ y, s.adjB x y = true → y ∈ L)
    (h : Reach s a b) : b ∈ L := by
  induction h with
  | refl => exact ha
  | tail _ hstep ih => exact hcl _ ih _ hstep

theorem length_filter_lt_of_mem {α : Type} {p : α → Bool} {l : List α} {a : α}
    (ha : a ∈ l) (hp : p a = false) : (l.filter p).length < l.length := by
  induction l with
  | nil => cases ha
  | cons b bs ih =>
    rcases List.mem_cons.1 ha with rfl | hb
    · rw [List.filter_cons, hp]
      exact Nat.lt_succ_of_le (List.length_filter_le _ _)
    · rw [List.filter_cons]
      cases hpb : p b
      · exact Nat.lt_succ_of_lt (ih hb)
      · simpa using Nat.succ_lt_succ (ih hb)

theorem walkB_spec (s : Skeleton) :
    ∀ (f prev cur : Nat) (acc : List Nat) (len : ℚ) (res : List Nat) (bp : Nat) (L : ℚ),
      walkB s f prev cur acc len = some (res, bp, L) →
      acc.Sublist res ∧ bp ∉ res ∧ 3 ≤ s.degreeOf bp ∧
      ((∀ x ∈ acc, Reach s x cur) → ∀ x ∈ res, Reach s x bp) := by
  intro f
  induction f with
  | zero =>
    intro prev cur acc len res bp L h
    exact absurd h (by simp [walkB])
  | succ f ih =>
    intro prev cur acc len res bp L h
    unfold walkB at h
    split at h
    · exact absurd h (by simp)
    · next hcur =>
      split at h
      · next hdeg =>
        rw [Option.some_inj] at h
        injection h with h1 h2
        injection h2 with h2 h3
        subst h1 h2 h3
        exact ⟨List.Sublist.refl _, hcur, hdeg, fun Hacc => Hacc⟩
      · next hdeg3 =>
        split at h
        · next hdeg2 =>
          split at h
          · next nxt hfil =>
            obtain ⟨hsub, hbp, hdeg, hreach⟩ := ih _ _ _ _ _ _ _ h
            have hnxt : nxt ∈ s.nbrIds cur := by
              have : nxt ∈ (s.nbrIds cur).filter (fun b => decide (b ≠ prev)) := by
                rw [hfil]; exact List.mem_singleton_self _
              exact (List.mem_filter.1 this).1
            have hadj : s.adjB cur nxt = true := adjB_of_mem_nbrIds s cur nxt hnxt
            refine ⟨(List.sublist_append_left acc [cur]).trans hsub, hbp, hdeg, ?_⟩
            intro Hacc
            apply hreach
            intro x hx
            rcases List.mem_append.1 hx with hxa | hxc
            · exact (Hacc x hxa).tail hadj
            · rw [List.mem_singleton.1 hxc]
              exact Relation.ReflTransGen.single hadj
          · exact absurd h (by simp)
        · exact absurd h (by simp)

theorem branchOf_spec (s : Skeleton) (t : ℚ) (a : Nat) (res : List Nat)
    (h : branchOf s t a = some res) :
    a ∈ res ∧ ∃ bp, bp ∉ res ∧ 3 ≤ s.degreeOf bp ∧ ∀ x ∈ res, Reach s x bp := by
  unfold branchOf at h
  split at h
  · next c hnbr =>
    split at h
    · next res2 bp L hwalk =>
      split at h
      · rw [Option.some_inj] at h
        subst h
        obtain ⟨hsub, hbp, hdeg, hreach⟩ := walkB_spec s _ _ _ _ _ _ _ _ hwalk
        have hc : c ∈ s.nbrIds a := by rw [hnbr]; exact List.mem_singleton_self _
        have hadj : s.adjB a c = true := adjB_of_mem_nbrIds s a c hc
        refine ⟨hsub.mem (List.mem_singleton_self a), bp, hbp, hdeg, ?_⟩
        apply hreach
        intro x hx
        rw [List.mem_singleton.1 hx]
        exact Relation.ReflTransGen.single hadj
      · exact absurd h (by simp)
    · exact absurd h (by simp)
  · exact absurd h (by simp)

theorem trimStep_some (s : Skeleton) (t : ℚ) (s2 : Skeleton)
    (h : trimStep s t = some s2) :
    ∃ res, s2 = removeNodes s res ∧ (∃ nd ∈ s.nodes, nd.nid ∈ res) ∧
      ∃ bp, bp ∉ res ∧ 3 ≤ s.degreeOf bp ∧ ∀ x ∈ res, Reach s x bp := by
  unfold trimStep at h
  split at h
  · next res hfind =>
    rw [Option.some_inj] at h
    obtain ⟨a, ha, hbr⟩ := List.exists_of_findSome?_eq_some hfind
    obtain ⟨hares, hbp⟩ := branchOf_spec s t a res hbr
    obtain ⟨nd, hnd, hnid⟩ := List.mem_map.1 ha
    exact ⟨res, h.symm, ⟨nd, hnd, hnid ▸ hares⟩, hbp⟩
  · exact absurd h (by simp)

theorem trimStep_shrink (s : Skeleton) (t : ℚ) (s2 : Skeleton)
    (h : trimStep s t = some s2) : s2.nodes.length < s.nodes.length := by
  obtain ⟨res, rfl, ⟨nd, hnd, hnid⟩, -⟩ := trimStep_some s t s2 h
  unfold removeNodes
  exact length_filter_lt_of_mem hnd (by simp [hnid])

theorem trimLoop_of_none (t : ℚ) (f : Nat) (s : Skeleton)
    (h : trimStep s t = none) : trimLoop t f s = s := by
  cases f <;> simp [trimLoop, h]

theorem trimLoop_post (t : ℚ) :
    ∀ (f : Nat) (s : Skeleton), s.nodes.length ≤ f → trimStep (trimLoop t f s) t = none := by
  intro f
  induction f with
  | zero =>
    intro s h
    have hnil : s.nodes = [] := List.eq_nil_of_length_eq_zero (Nat.le_zero.1 h)
    simp [trimLoop, trimStep, hnil]
  | succ f ih =>
    intro s h
    cases hstep : trimStep s t with
    | none => rw [trimLoop, hstep]; exact hstep
    | some s2 =>
      rw [trimLoop, hstep]
      apply ih
      have := trimStep_shrink s t s2 hstep
      omega

theorem trim_of_no_edges (s : Skeleton) (t : ℚ) (h : s.edges = []) :
    trim_skeleton s t = s := by
  apply trimLoop_of_none
  unfold trimStep
  have hb : ∀ a ∈ s.nodes.map Node.nid, branchOf s t a = none := by
    intro a _
    unfold branchOf
    have : s.nbrIds a = [] := by simp [Skeleton.nbrIds, h]
    rw [this]
  rw [List.findSome?_eq_none_iff.2 hb]

theorem mem_stepB {nbr : Nat → List Nat} {S : Finset Nat} {x : Nat} :
    x ∈ stepB nbr S ↔ x ∈ S ∨ ∃ p ∈ S, x ∈ nbr p := by
  simp [stepB, Finset.mem_union, Finset.mem_biUnion, List.mem_toFinset]

theorem subset_stepB (nbr : Nat → List Nat) (S : Finset Nat) : S ⊆ stepB nbr S :=
  Finset.subset_union_left

theorem stepB_mono (nbr : Nat → List Nat) {S T : Finset Nat} (h : S ⊆ T) :
    stepB nbr S ⊆ stepB nbr T := by
  intro x hx
  rcases mem_stepB.1 hx with hx | ⟨p, hp, hn⟩
  · exact mem_stepB.2 (Or.inl (h hx))
  · exact mem_stepB.2 (Or.inr ⟨p, h hp, hn⟩)

theorem ballB_subset_succ (nbr : Nat → List Nat) (k : Nat) (S : Finset Nat) :
    ballB nbr k S ⊆ ballB nbr (k + 1) S := subset_stepB nbr _

theorem ballB_le_subset (nbr : Nat → List Nat) {k m : Nat} (h : k ≤ m) (S : Finset Nat) :
    ballB nbr k S ⊆ ballB nbr m S := by
  induction m, h using Nat.le_induction with
  | base => exact Finset.Subset.refl _
  | succ m hm ih => exact ih.trans (ballB_subset_succ nbr m S)

theorem ballB_mono_start (nbr : Nat → List Nat) (k : Nat) {S T : Finset Nat} (h : S ⊆ T) :
    ballB nbr k S ⊆ ballB nbr k T := by
  induction k with
  | zero => exact h
  | succ k ih => exact stepB_mono nbr ih

theorem subset_ballB (nbr : Nat → List Nat) (k : Nat) (S : Finset Nat) : S ⊆ ballB nbr k S := by
  induction k with
  | zero => exact Finset.Subset.refl S
  | succ k ih => exact ih.trans (ballB_subset_succ nbr k S)

theorem ballB_add (nbr : Nat → List Nat) (a b : Nat) (S : Finset Nat) :
    ballB nbr (a + b) S = ballB nbr a (ballB nbr b S) := by
  induction a with
  | zero => rw [Nat.zero_add]; rfl
  | succ a ih =>
    have : a + 1 + b = (a + b) + 1 := by omega
    rw [this]
    show stepB nbr (ballB nbr (a + b) S) = stepB nbr (ballB nbr a (ballB nbr b S))
    rw [ih]

theorem ballB_subset_univ (nbr : Nat → List Nat) (V : Finset Nat)
    (hn : ∀ p, ∀ q ∈ nbr p, q ∈ V) {S : Finset Nat} (hS : S ⊆ V) (k : Nat) :
    ballB nbr k S ⊆ V := by
  induction k with
  | zero => exact hS
  | succ k ih =>
    intro x hx
    rcases mem_stepB.1 hx with hx | ⟨p, hp, hq⟩
    · exact ih hx
    · exact hn p x hq

theorem ballB_stab_of_eq (nbr : Nat → List Nat) (S : Finset Nat) (k : Nat)
    (h : ballB nbr (k + 1) S = ballB nbr k S) :
    ∀ m, k ≤ m → ballB nbr m S = ballB nbr k S := by
  intro m hm
  induction m, hm using Nat.le_induction with
  | base => rfl
  | succ m hm ih =>
    show stepB nbr (ballB nbr m S) = ballB nbr k S
    rw [ih]
    exact h

theorem ballB_exists_stab (nbr : Nat → List Nat) (V : Finset Nat)
    (hn : ∀ p, ∀ q ∈ nbr p, q ∈ V) {S : Finset Nat} (hS : S ⊆ V) (hne : S.Nonempty) :
    ∃ k < V.card, ballB nbr (k + 1) S = ballB nbr k S := by
  by_contra hcon
  push_neg at hcon
  have grow : ∀ k, k ≤ V.card → k + 1 ≤ (ballB nbr k S).card := by
    intro k
    induction k with
    | zero =>
      intro _
      exact Finset.Nonempty.card_pos hne
    | succ k ih =>
      intro hk
      have h1 : k + 1 ≤ (ballB nbr k S).card := ih (by omega)
      have hss : ballB nbr k S ⊂ ballB nbr (k + 1) S :=
        Finset.ssubset_iff_subset_ne.2 ⟨ballB_subset_succ nbr k S, fun he => hcon k (by omega) he.symm⟩
      have := Finset.card_lt_card hss
      omega
  have h1 := grow V.card le_rfl
  have h2 := Finset.card_le_card (ballB_subset_univ nbr V hn hS V.card)
  omega

theorem ballB_stab (nbr : Nat → List Nat) (V : Finset Nat)
    (hn : ∀ p, ∀ q ∈ nbr p, q ∈ V) {S : Finset Nat} (hS : S ⊆ V) (hne : S.Nonempty) :
    ∀ m, V.card ≤ m → ballB nbr m S = ballB nbr V.card S := by
  obtain ⟨k, hk, heq⟩ := ballB_exists_stab nbr V hn hS hne
  intro m hm
  rw [ballB_stab_of_eq nbr S k heq m (by omega), ballB_stab_of_eq nbr S k heq V.card (by omega)]

theorem mem_ballB_symm (nbr : Nat → List Nat) (hsym : ∀ p q, q ∈ nbr p → p ∈ nbr q) :
    ∀ (k p q : Nat), q ∈ ballB nbr k {p} → p ∈ ballB nbr k {q} := by
  intro k
  induction k with
  | zero =>
    intro p q hq
    rw [ballB] at hq ⊢
    rw [Finset.mem_singleton] at hq
    rw [hq, Finset.mem_singleton]
  | succ k ih =>
    intro p q hq
    rcases mem_stepB.1 hq with hq | ⟨w, hw, hqn⟩
    · exact ballB_subset_succ nbr k {q} (ih p q hq)
    · have hw2 : w ∈ nbr q := hsym _ _ hqn
      have h1 : ({w} : Finset Nat) ⊆ ballB nbr 1 {q} := by
        intro x hx
        rw [Finset.mem_singleton] at hx
        subst hx
        exact mem_stepB.2 (Or.inr ⟨q, Finset.mem_singleton_self q, hw2⟩)
      have h2 : ballB nbr k {w} ⊆ ballB nbr (k + 1) {q} := by
        have h3 := ballB_mono_start nbr k h1
        rw [← ballB_add nbr k 1] at h3
        exact h3
      exact h2 (ih p w hw)

theorem ballB_singleton_nonempty (nbr : Nat → List Nat) (k p : Nat) :
    (ballB nbr k {p}).Nonempty :=
  ⟨p, subset_ballB nbr k {p} (Finset.mem_singleton_self p)⟩

theorem mdist_symm (a b : MNode) : mdist a b = mdist b a := by
  unfold mdist
  rw [← neg_sub b.mx a.mx, ← neg_sub b.my a.my, ← neg_sub b.mz a.mz,
    Int.natAbs_neg, Int.natAbs_neg, Int.natAbs_neg]

theorem adjM_iff_symm (eps : ℚ) (ns : List MNode) (p q : Nat) :
    adjM eps ns p q = true ↔ adjM eps ns q p = true := by
  unfold adjM
  rw [mdist_symm]
  simp only [Bool.and_eq_true, decide_eq_true_eq]
  constructor
  · rintro ⟨⟨⟨⟨h1, h2⟩, h3⟩, h4⟩, h5⟩
    exact ⟨⟨⟨⟨Ne.symm h1, h3⟩, h2⟩, Ne.symm h4⟩, h5⟩
  · rintro ⟨⟨⟨⟨h1, h2⟩, h3⟩, h4⟩, h5⟩
    exact ⟨⟨⟨⟨Ne.symm h1, h3⟩, h2⟩, Ne.symm h4⟩, h5⟩

theorem mem_nbrsM (eps : ℚ) (ns : List MNode) (p q : Nat) :
    q ∈ nbrsM eps ns p ↔ adjM eps ns p q = true := by
  unfold nbrsM
  rw [List.mem_filter, List.mem_range]
  constructor
  · exact fun h => h.2
  · intro h
    refine ⟨?_, h⟩
    unfold adjM at h
    simp only [Bool.and_eq_true, decide_eq_true_eq] at h
    exact h.1.1.2

theorem nbrsM_symm (eps : ℚ) (ns : List MNode) :
    ∀ p q, q ∈ nbrsM eps ns p → p ∈ nbrsM eps ns q := by
  intro p q h
  rw [mem_nbrsM] at h ⊢
  exact (adjM_iff_symm eps ns p q).1 h

theorem nbrsM_bounded (eps : ℚ) (ns : List MNode) :
    ∀ p, ∀ q ∈ nbrsM eps ns p, q ∈ Finset.range ns.length := by
  intro p q h
  unfold nbrsM at h
  rw [Finset.mem_range]
  exact List.mem_range.1 (List.mem_filter.1 h).1

theorem ballN_subset_range (eps : ℚ) (ns : List MNode) {p : Nat} (hp : p < ns.length) (k : Nat) :
    ballB (nbrsM eps ns) k {p} ⊆ Finset.range ns.length :=
  ballB_subset_univ _ _ (nbrsM_bounded eps ns)
    (by intro x hx; rw [Finset.mem_singleton] at hx; subst hx; exact Finset.mem_range.2 hp) k

theorem ballN_stab (eps : ℚ) (ns : List MNode) {p : Nat} (hp : p < ns.length) :
    ∀ m, ns.length ≤ m →
      ballB (nbrsM eps ns) m {p} = ballB (nbrsM eps ns) ns.length {p} := by
  intro m hm
  have h := ballB_stab (nbrsM eps ns) (Finset.range ns.length) (nbrsM_bounded eps ns)
    (S := {p})
    (by intro x hx; rw [Finset.mem_singleton] at hx; subst hx; exact Finset.mem_range.2 hp)
    (Finset.singleton_nonempty p)
  rw [Finset.card_range] at h
  rw [h m hm, h ns.length le_rfl]

theorem ballN_sub_of_mem (eps : ℚ) (ns : List MNode) {p q : Nat} (hp : p < ns.length)
    (hq : q ∈ ballB (nbrsM eps ns) ns.length {p}) :
    ballB (nbrsM eps ns) ns.length {q} ⊆ ballB (nbrsM eps ns) ns.length {p} := by
  have h1 : ({q} : Finset Nat) ⊆ ballB (nbrsM eps ns) ns.length {p} := by
    intro x hx; rw [Finset.mem_singleton] at hx; subst hx; exact hq
  have h2 := ballB_mono_start (nbrsM eps ns) ns.length h1
  rw [← ballB_add] at h2
  have h3 := ballN_stab eps ns hp (ns.length + ns.length) (by omega)
  rw [h3] at h2
  exact h2

theorem ballN_eq_of_mem (eps : ℚ) (ns : List MNode) {p q : Nat} (hp : p < ns.length)
    (hq : q ∈ ballB (nbrsM eps ns) ns.length {p}) :
    ballB (nbrsM eps ns) ns.length {q} = ballB (nbrsM eps ns) ns.length {p} := by
  have hqlt : q < ns.length := Finset.mem_range.1 (ballN_subset_range eps ns hp ns.length hq)
  have hqp : p ∈ ballB (nbrsM eps ns) ns.length {q} :=
    mem_ballB_symm (nbrsM eps ns) (nbrsM_symm eps ns) ns.length p q hq
  exact Finset.Subset.antisymm (ballN_sub_of_mem eps ns hp hq) (ballN_sub_of_mem eps ns hqlt hqp)

theorem reprM_mem_ball (eps : ℚ) (ns : List MNode) (p : Nat) :
    reprM eps ns p ∈ ballB (nbrsM eps ns) ns.length {p} := by
  obtain ⟨b, hb⟩ := Finset.min_of_mem
    (subset_ballB (nbrsM eps ns) ns.length {p} (Finset.mem_singleton_self p))
  have h1 : reprM eps ns p = b := by
    unfold reprM
    rw [hb]
    rfl
  rw [h1]
  exact Finset.mem_of_min hb

theorem reprM_eq_of_mem (eps : ℚ) (ns : List MNode) {p q : Nat} (hp : p < ns.length)
    (hq : q ∈ ballB (nbrsM eps ns) ns.length {p}) :
    reprM eps ns q = reprM eps ns p := by
  have e := ballN_eq_of_mem eps ns hp hq
  obtain ⟨b, hb⟩ := Finset.min_of_mem
    (subset_ballB (nbrsM eps ns) ns.length {p} (Finset.mem_singleton_self p))
  unfold reprM
  rw [e, hb]
  rfl

theorem reprM_eq_of_adj (eps : ℚ) (ns : List MNode) {p q : Nat}
    (h : adjM eps ns p q = true) : reprM eps ns q = reprM eps ns p := by
  have hp : p < ns.length := by
    unfold adjM at h
    simp only [Bool.and_eq_true, decide_eq_true_eq] at h
    exact h.1.1.1.2
  apply reprM_eq_of_mem eps ns hp
  have hq1 : q ∈ nbrsM eps ns p := (mem_nbrsM eps ns p q).2 h
  have hball1 : q ∈ ballB (nbrsM eps ns) 1 {p} :=
    mem_stepB.2 (Or.inr ⟨p, Finset.mem_singleton_self p, hq1⟩)
  have hN : 1 ≤ ns.length := by omega
  exact ballB_le_subset (nbrsM eps ns) hN {p} hball1

theorem reprM_idem (eps : ℚ) (ns : List MNode) {p : Nat} (hp : p < ns.length) :
    reprM eps ns (reprM eps ns p) = reprM eps ns p :=
  reprM_eq_of_mem eps ns hp (reprM_mem_ball eps ns p)

theorem reprM_lt (eps : ℚ) (ns : List MNode) {p : Nat} (hp : p < ns.length) :
    reprM eps ns p < ns.length :=
  Finset.mem_range.1 (ballN_subset_range eps ns hp ns.length (reprM_mem_ball eps ns p))

theorem le_foldr_max {l : List ℚ} {init a : ℚ} (h : a ∈ l) : a ≤ l.foldr max init := by
  induction l with
  | nil => cases h
  | cons b bs ih =>
    rcases List.mem_cons.1 h with rfl | hb
    · exact le_max_left _ _
    · exact le_trans (ih hb) (le_max_right _ _)

theorem foldr_max_cases (l : List ℚ) (init : ℚ) :
    l.foldr max init = init ∨ l.foldr max init ∈ l := by
  induction l with
  | nil => exact Or.inl rfl
  | cons b bs ih =>
    rcases max_choice b (bs.foldr max init) with h | h
    · exact Or.inr (by rw [List.foldr_cons, h]; exact List.mem_cons_self _ _)
    · rcases ih with h2 | h2
      · exact Or.inl (by rw [List.foldr_cons, h, h2])
      · exact Or.inr (by rw [List.foldr_cons, h]; exact List.mem_cons_of_mem _ h2)

theorem mem_clusterOf (eps : ℚ) (ns : List MNode) (r q : Nat) :
    q ∈ clusterOf eps ns r ↔ q < ns.length ∧ reprM eps ns q = r := by
  unfold clusterOf
  rw [List.mem_filter, List.mem_range]
  simp

theorem radius_le_clusterRadius (eps : ℚ) (ns : List MNode) (r q : Nat)
    (h : q ∈ clusterOf eps ns r) : (mnodeAt ns q).mrad ≤ clusterRadius eps ns r := by
  unfold clusterRadius
  exact le_foldr_max (List.mem_map.2 ⟨q, h, rfl⟩)

theorem clusterRadius_attained (eps : ℚ) (ns : List MNode) (r : Nat)
    (hr : r ∈ clusterOf eps ns r) :
    ∃ q ∈ clusterOf eps ns r, clusterRadius eps ns r = (mnodeAt ns q).mrad := by
  rcases foldr_max_cases ((clusterOf eps ns r).map (fun q => (mnodeAt ns q).mrad))
      ((mnodeAt ns r).mrad) with h | h
  · exact ⟨r, hr, h⟩
  · obtain ⟨q, hq, hv⟩ := List.mem_map.1 h
    exact ⟨q, hq, hv.symm⟩

theorem mergedNodes_nodeIds (eps : ℚ) (ns : List MNode) :
    (mergedNodes eps ns).map Node.nid =
      (List.range ns.length).filter (fun p => decide (reprM eps ns p = p)) := by
  unfold mergedNodes
  rw [List.map_map]
  exact List.map_id _

theorem mem_mergedNodes_of_repr (eps : ℚ) (ns : List MNode) (r : Nat)
    (hr : reprM eps ns r = r) (hlt : r < ns.length) :
    ({ nid := r, x := (mnodeAt ns r).mx, y := (mnodeAt ns r).my, z := (mnodeAt ns r).mz,
       radius := clusterRadius eps ns r } : Node) ∈ mergedNodes eps ns := by
  unfold mergedNodes
  exact List.mem_map.2 ⟨r, List.mem_filter.2 ⟨List.mem_range.2 hlt, by simp [hr]⟩, rfl⟩

theorem unionNodes_length (frags : List Skeleton) :
    (unionNodes frags).length = (frags.map (fun f => f.nodes.length)).sum := by
  unfold unionNodes
  rw [List.flatMap, List.length_flatten, List.map_map]
  have h1 : frags.map (fun f => f.nodes.length) =
      frags.enum.map ((fun f => f.nodes.length) ∘ Prod.snd) := by
    rw [← List.map_map]
    rw [List.enum_map_snd]
  rw [h1]
  congr 1
  apply List.map_congr_left
  intro ks _
  simp [Function.comp, List.length_map]

theorem globId_lt (frags : List Skeleton) (k a g : Nat) (h : globId frags k a = some g) :
    g < (unionNodes frags).length := by
  unfold globId at h
  split at h
  · exact absurd h (by simp)
  · next s hget =>
    split at h
    · exact absurd h (by simp)
    · next pos hfind =>
      rw [Option.some_inj] at h
      subst h
      have hpos : pos < s.nodes.length := by
        have := (List.findIdx?_eq_some_iff_findIdx_eq.1 hfind).1
        rwa [List.length_map] at this
      have hk : k < frags.length := by
        by_contra hk
        rw [List.get?_eq_none.2 (by omega)] at hget
        exact absurd hget (by simp)
      have hgetel : frags[k] = s := by
        have := List.get?_eq_get (l := frags) (n := k) hk
        rw [this] at hget
        exact Option.some_inj.1 hget
      rw [unionNodes_length]
      conv_rhs => rw [← List.take_append_drop k frags]
      rw [List.map_append, List.sum_append]
      have hdrop : frags.drop k = s :: frags.drop (k + 1) := by
        rw [List.drop_eq_getElem_cons hk, hgetel]
      rw [hdrop, List.map_cons, List.sum_cons]
      have : (0:Nat) ≤ ((frags.drop (k+1)).map (fun f => f.nodes.length)).sum := Nat.zero_le _
      omega

theorem unionEdges_lt (frags : List Skeleton) (e : Nat × Nat) (h : e ∈ unionEdges frags) :
    e.1 < (unionNodes frags).length ∧ e.2 < (unionNodes frags).length := by
  unfold unionEdges at h
  obtain ⟨ks, hks, he⟩ := List.mem_flatMap.1 h
  obtain ⟨e0, he0, hmap⟩ := List.mem_filterMap.1 he
  split at hmap
  · next a b hga hgb =>
    rw [Option.some_inj] at hmap
    subst hmap
    exact ⟨globId_lt frags ks.1 e0.1 a hga, globId_lt frags ks.1 e0.2 b hgb⟩
  · exact absurd hmap (by simp)

theorem oidMismatch_iff (frags : List Skeleton) :
    oidMismatch frags = true ↔ ∃ f ∈ frags, ∃ g ∈ frags, f.objectId ≠ g.objectId := by
  unfold oidMismatch
  simp

theorem merge_skeletons_ok (eps : ℚ) (frags : List Skeleton)
    (h : oidMismatch frags = false) :
    merge_skeletons eps frags =
      .ok { objectId := (frags.head?.map Skeleton.objectId).getD 0,
            nodes := mergedNodes eps (unionNodes frags),
            edges := mergedEdges eps frags (unionNodes frags) } := by
  unfold merge_skeletons
  rw [h]
  rfl

theorem merge_skeletons_err (eps : ℚ) (frags : List Skeleton)
    (h : oidMismatch frags = true) :
    merge_skeletons eps frags = .error .ObjectMismatchError := by
  unfold merge_skeletons
  rw [h]
  rfl

theorem emptySkel_valid : emptySkel.Valid := by
  refine ⟨?_, List.nodup_nil, List.nodup_nil⟩
  intro e he
  cases he

theorem finishSkeleton_nodeIds (m : VoxelMask) (st : TState) :
    (finishSkeleton m st).nodeIds = List.range st.nodesA.length := by
  unfold finishSkeleton Skeleton.nodeIds
  simp only [List.map_map]
  have : (Node.nid ∘ fun pv : Nat × Nat => voxNode m pv.1 pv.2) = Prod.fst := by
    funext pv
    rfl
  rw [this, List.enum_map_fst]

theorem finishSkeleton_valid (m : VoxelMask) (st : TState) :
    (finishSkeleton m st).Valid := by
  refine ⟨?_, ?_, ?_⟩
  · intro e he
    have h2 : (finishSkeleton m st).edges =
        mkEdges ((finishSkeleton m st).nodeIds) (st.edgesA.map
          (fun e => (st.nodesA.findIdx (· == e.1), st.nodesA.findIdx (· == e.2)))) := rfl
    rw [h2] at he
    exact mkEdges_good _ _ e he
  · exact mkEdges_nodup _ _
  · rw [finishSkeleton_nodeIds]
    exact List.nodup_range _

theorem downsampleSkel_valid (s : Skeleton) (hv : s.Valid) : (downsampleSkel s).Valid := by
  obtain ⟨-, -, hids⟩ := hv
  refine ⟨?_, mkEdges_nodup _ _, ?_⟩
  · intro e he
    exact mkEdges_good _ _ e he
  · show ((s.nodes.filter _).map Node.nid).Nodup
    exact ((List.filter_sublist s.nodes).map Node.nid).nodup hids

theorem skeletonize_ok_valid (m : VoxelMask) (cfg : SkelConfig) (s : Skeleton)
    (h : skeletonize m cfg = .ok s) : s.Valid := by
  unfold skeletonize at h
  split at h
  · split at h
    · rw [Except.ok.injEq] at h
      rw [← h]
      exact emptySkel_valid
    · rw [Except.ok.injEq] at h
      rw [← h]
      split
      · exact downsampleSkel_valid _ (finishSkeleton_valid _ _)
      · exact finishSkeleton_valid _ _
  · exact absurd h (by simp)

theorem crop_skeleton_valid (s : Skeleton) (cb gb : Bounds) (mg : Nat) (hv : s.Valid) :
    (crop_skeleton s cb gb mg).Valid := by
  obtain ⟨-, -, hids⟩ := hv
  refine ⟨?_, mkEdges_nodup _ _, ?_⟩
  · intro e he
    exact mkEdges_good _ _ e he
  · show ((s.nodes.filter _).map Node.nid).Nodup
    exact ((List.filter_sublist s.nodes).map Node.nid).nodup hids

theorem merge_skeletons_ok_valid (eps : ℚ) (frags : List Skeleton) (out : Skeleton)
    (h : merge_skeletons eps frags = .ok out) : out.Valid := by
  unfold merge_skeletons at h
  split at h
  · exact absurd h (by simp)
  · rw [Except.ok.injEq] at h
    rw [← h]
    refine ⟨?_, mkEdges_nodup _ _, ?_⟩
    · intro e he
      exact mkEdges_good _ _ e he
    · show ((mergedNodes eps (unionNodes frags)).map Node.nid).Nodup
      rw [mergedNodes_nodeIds]
      exact (List.nodup_range _).filter _

theorem removeNodes_valid (s : Skeleton) (res : List Nat) (hv : s.Valid) :
    (removeNodes s res).Valid := by
  obtain ⟨hgood, hnd, hids⟩ := hv
  refine ⟨?_, hnd.filter _, ?_⟩
  · intro e he
    have he2 := List.mem_filter.1 he
    have hγ := hgood e he2.1
    unfold goodEdge Skeleton.nodeIds at hγ ⊢
    simp only [Bool.and_eq_true, decide_eq_true_eq] at he2 hγ ⊢
    have hr1 : e.1 ∉ res := he2.2.1
    have hr2 : e.2 ∉ res := he2.2.2
    refine ⟨⟨hγ.1.1, ?_⟩, ?_⟩
    · obtain ⟨nd, hnd1, hnid⟩ := List.mem_map.1 hγ.1.2
      exact List.mem_map.2 ⟨nd, List.mem_filter.2 ⟨hnd1, by simp [hnid, hr1]⟩, hnid⟩
    · obtain ⟨nd, hnd1, hnid⟩ := List.mem_map.1 hγ.2
      exact List.mem_map.2 ⟨nd, List.mem_filter.2 ⟨hnd1, by simp [hnid, hr2]⟩, hnid⟩
  · show ((s.nodes.filter _).map Node.nid).Nodup
    exact ((List.filter_sublist s.nodes).map Node.nid).nodup hids

theorem trimStep_valid (s : Skeleton) (t : ℚ) (s2 : Skeleton)
    (h : trimStep s t = some s2) (hv : s.Valid) : s2.Valid := by
  obtain ⟨res, rfl, -, -⟩ := trimStep_some s t s2 h
  exact removeNodes_valid s res hv

theorem trimLoop_valid (t : ℚ) :
    ∀ (f : Nat) (s : Skeleton), s.Valid → (trimLoop t f s).Valid := by
  intro f
  induction f with
  | zero => intro s hv; exact hv
  | succ f ih =>
    intro s hv
    rw [trimLoop]
    cases hstep : trimStep s t with
    | none => exact hv
    | some s2 => exact ih s2 (trimStep_valid s t s2 hstep hv)

theorem trim_skeleton_valid (s : Skeleton) (t : ℚ) (hv : s.Valid) :
    (trim_skeleton s t).Valid := trimLoop_valid t _ s hv

theorem skeletonize_invalid_mask (m : VoxelMask) (cfg : SkelConfig)
    (h : m.isValid = false) : skeletonize m cfg = .error .InvalidInputError := by
  unfold skeletonize
  rw [h]
  rfl

theorem skeletonize_empty (m : VoxelMask) (cfg : SkelConfig)
    (hval : m.isValid = true) (hfg : fgIdxs m = []) :
    skeletonize m cfg = .ok emptySkel := by
  unfold skeletonize
  rw [hval, hfg]
  rfl

theorem voxNbrs_singleton (m : VoxelMask) (v : Nat) (hfg : fgIdxs m = [v]) :
    voxNbrs m v = [] := by
  unfold voxNbrs
  rw [List.filter_eq_nil_iff]
  intro j _
  simp only [Bool.and_eq_true, decide_eq_true_eq, not_and]
  intro hne hmem
  exact hne (List.mem_singleton.1 (hfg ▸ hmem))

theorem dijkLoop_none (m : VoxelMask) (settled : List DijkEntry)
    (h : dijkStep m settled = none) : ∀ f, dijkLoop m f settled = settled := by
  intro f
  cases f with
  | zero => rfl
  | succ f => rw [dijkLoop, h]

theorem dijkstra_singleton (m : VoxelMask) (v : Nat) (hnb : voxNbrs m v = []) :
    dijkstra m v = [(v, (0 : ℚ), [v])] := by
  unfold dijkstra
  apply dijkLoop_none
  unfold dijkStep dijkCands
  simp [hnb, pickMin]

theorem skelLoop_stuck (m : VoxelMask) (cfg : SkelConfig) (dij : List DijkEntry)
    (st : TState) (h : ∀ i ∈ fgIdxs m, i ∈ st.invalid) :
    ∀ f, skelLoop m cfg dij f st = st := by
  intro f
  cases f with
  | zero => rfl
  | succ f =>
    have hu : (fgIdxs m).filter (fun i => decide (i ∉ st.invalid)) = [] :=
      List.filter_eq_nil_iff.2 (fun a ha => by simp [h a ha])
    rw [skelLoop, hu]
    rfl

theorem settledCost_self (v : Nat) (c : ℚ) (p : List Nat) :
    settledCost [(v, c, p)] v = some c := by
  simp [settledCost, List.find?]

theorem pathOf_self (v : Nat) (c : ℚ) (p : List Nat) : pathOf [(v, c, p)] v = p := by
  simp [pathOf, List.find?]

theorem insertAll_self (v : Nat) : insertAll [v] [v] = [v] := by
  simp [insertAll]

theorem skelLoop_singleton (m : VoxelMask) (cfg : SkelConfig) (v : Nat)
    (hfg : fgIdxs m = [v]) (f : Nat) :
    (skelLoop m cfg (dijkstra m v) (f + 1) ⟨[], [v], []⟩).nodesA = [v] ∧
    (skelLoop m cfg (dijkstra m v) (f + 1) ⟨[], [v], []⟩).edgesA = [] := by
  have hdij : dijkstra m v = [(v, (0 : ℚ), [v])] :=
    dijkstra_singleton m v (voxNbrs_singleton m v hfg)
  rw [skelLoop, hfg, hdij]
  have hu : List.filter (fun i => decide (i ∉ ([] : List Nat))) [v] = [v] := by simp
  rw [hu]
  have hc : List.filter (fun i => (settledCost [(v, (0 : ℚ), [v])] i).isSome) [v] = [v] := by
    simp [settledCost_self]
  rw [hc]
  have ha : argmaxQ (fun i => (settledCost [(v, (0 : ℚ), [v])] i).getD 0) [v] =
      some (v, (0 : ℚ)) := by
    show some (v, (settledCost [(v, (0 : ℚ), [v])] v).getD 0) = some (v, (0 : ℚ))
    rw [settledCost_self]
    rfl
  rw [ha]
  dsimp only
  split
  · exact ⟨rfl, rfl⟩
  · rw [pathOf_self, insertAll_self]
    have hstuck := skelLoop_stuck m cfg [(v, (0 : ℚ), [v])]
      ⟨v :: [v] ++ invalidatedBy m cfg [v] ++ [], [v], [] ++ pathEdges [v]⟩
      (by
        intro i hi
        rw [hfg] at hi
        rw [List.mem_singleton.1 hi]
        exact List.mem_cons_self _ _) f
    rw [hstuck]
    exact ⟨rfl, rfl⟩

theorem finishSkeleton_single (m : VoxelMask) (st : TState) (v : Nat)
    (h1 : st.nodesA = [v]) (h2 : st.edgesA = []) :
    finishSkeleton m st = { objectId := 0, nodes := [voxNode m 0 v], edges := [] } := by
  unfold finishSkeleton
  rw [h1, h2]
  rfl

theorem downsample_of_no_edges (s : Skeleton) (h : s.edges = []) :
    downsampleSkel s = s := by
  have h0 : ∀ nd, dsRem s nd = false := by
    intro nd
    unfold dsRem dsRem0 twoNbrs
    have hn : s.nbrIds nd.nid = [] := by simp [Skeleton.nbrIds, h]
    rw [hn]
    rfl
  unfold downsampleSkel
  have hkeep : s.nodes.filter (fun nd => !dsRem s nd) = s.nodes :=
    List.filter_eq_self.2 (fun nd _ => by rw [h0 nd]; rfl)
  have hbr : s.nodes.filterMap (fun nd => if dsRem s nd then twoNbrs s nd.nid else none) = [] :=
    List.filterMap_eq_nil_iff.2 (fun nd _ => by rw [h0 nd]; rfl)
  rw [hkeep, hbr, h]
  show ({ objectId := s.objectId, nodes := s.nodes, edges := mkEdges _ [] } : Skeleton) = s
  rw [mkEdges_nil]
  conv_rhs => rw [show s = { objectId := s.objectId, nodes := s.nodes, edges := s.edges } from rfl]
  rw [h]

theorem skeletonize_single (m : VoxelMask) (cfg : SkelConfig) (v : Nat)
    (hval : m.isValid = true) (hfg : fgIdxs m = [v]) :
    skeletonize m cfg = .ok { objectId := 0, nodes := [voxNode m 0 v], edges := [] } := by
  have hvol : m.volume ≠ 0 := by
    unfold VoxelMask.isValid at hval
    simp only [Bool.and_eq_true, decide_eq_true_eq] at hval
    exact hval.1.1
  obtain ⟨k, hk⟩ : ∃ k, m.volume = k + 1 := ⟨m.volume - 1, by omega⟩
  unfold skeletonize
  rw [hval]
  show (if true = true then _ else _) = _
  rw [if_pos rfl]
  rw [hfg]
  show Except.ok (if cfg.downsample then _ else _) = _
  rw [hk]
  obtain ⟨hn, he⟩ := skelLoop_singleton m cfg v hfg k
  rw [finishSkeleton_single m _ v hn he]
  split
  · rw [downsample_of_no_edges _ rfl]
  · rfl

theorem removeNodes_edges_sublist (s : Skeleton) (res : List Nat) :
    (removeNodes s res).edges.Sublist s.edges := List.filter_sublist _

theorem removeNodes_nodes_sublist (s : Skeleton) (res : List Nat) :
    (removeNodes s res).nodes.Sublist s.nodes := List.filter_sublist _

theorem trimLoop_edges_sublist (t : ℚ) :
    ∀ (f : Nat) (s : Skeleton), (trimLoop t f s).edges.Sublist s.edges := by
  intro f
  induction f with
  | zero => exact fun s => List.Sublist.refl _
  | succ f ih =>
    intro s
    rw [trimLoop]
    cases hstep : trimStep s t with
    | none => exact List.Sublist.refl _
    | some s2 =>
      obtain ⟨res, heq, -, -⟩ := trimStep_some s t s2 hstep
      subst heq
      exact (ih _).trans (removeNodes_edges_sublist s res)

theorem trimLoop_nodes_sublist (t : ℚ) :
    ∀ (f : Nat) (s : Skeleton), (trimLoop t f s).nodes.Sublist s.nodes := by
  intro f
  induction f with
  | zero => exact fun s => List.Sublist.refl _
  | succ f ih =>
    intro s
    rw [trimLoop]
    cases hstep : trimStep s t with
    | none => exact List.Sublist.refl _
    | some s2 =>
      obtain ⟨res, heq, -, -⟩ := trimStep_some s t s2 hstep
      subst heq
      exact (ih _).trans (removeNodes_nodes_sublist s res)

theorem mem_nodeIds_of_degree_pos (s : Skeleton) (hv : s.Valid) (b : Nat)
    (h : 1 ≤ s.degreeOf b) : b ∈ s.nodeIds := by
  obtain ⟨hgood, -, -⟩ := hv
  unfold Skeleton.degreeOf at h
  have hne : s.nbrIds b ≠ [] := by
    intro hnil
    rw [hnil] at h
    simp at h
  obtain ⟨c, hc⟩ := List.exists_mem_of_ne_nil _ hne
  unfold Skeleton.nbrIds at hc
  obtain ⟨e, he, hmap⟩ := List.mem_filterMap.1 hc
  have hg := hgood e he
  unfold goodEdge at hg
  simp only [Bool.and_eq_true, decide_eq_true_eq] at hg
  split at hmap
  · next h1 => exact h1 ▸ hg.1.2
  · split at hmap
    · next h1 h2 => exact h2 ▸ hg.2
    · exact absurd hmap (by simp)

theorem trimLoop_untouched (t : ℚ) (s0 : Skeleton) (nd : Node)
    (H : ∀ w, Reach s0 nd.nid w → s0.degreeOf w ≤ 2) :
    ∀ (f : Nat) (s : Skeleton), s.edges.Sublist s0.edges → nd ∈ s.nodes →
      (∀ e ∈ s0.edges, (e.1 = nd.nid ∨ e.2 = nd.nid) → e ∈ s.edges) →
      nd ∈ (trimLoop t f s).nodes ∧
      (∀ e ∈ s0.edges, (e.1 = nd.nid ∨ e.2 = nd.nid) → e ∈ (trimLoop t f s).edges) := by
  intro f
  induction f with
  | zero => exact fun s _ h1 h2 => ⟨h1, h2⟩
  | succ f ih =>
    intro s hsub hmem hinc
    rw [trimLoop]
    cases hstep : trimStep s t with
    | none => exact ⟨hmem, hinc⟩
    | some s2 =>
      obtain ⟨res, heq, -, bp, hbpnot, hbdeg, hres⟩ := trimStep_some s t s2 hstep
      subst heq
      have hknot : ∀ u, u ∈ res → Reach s0 nd.nid u → False := by
        intro u hu hreach
        have h1 : Reach s u bp := hres u hu
        have h2 : Reach s0 u bp := Reach_mono hsub _ _ h1
        have h3 : Reach s0 nd.nid bp := hreach.trans h2
        have h4 : s0.degreeOf bp ≤ 2 := H bp h3
        have h5 : s.degreeOf bp ≤ s0.degreeOf bp := degreeOf_mono hsub bp
        omega
      have hnidnot : nd.nid ∉ res := fun hin => hknot _ hin (Reach.refl_self s0 nd.nid)
      apply ih
      · exact (removeNodes_edges_sublist s res).trans hsub
      · exact List.mem_filter.2 ⟨hmem, by simp [hnidnot]⟩
      · intro e he hinc2
        have hes : e ∈ s.edges := hinc e he hinc2
        apply List.mem_filter.2
        refine ⟨hes, ?_⟩
        simp only [Bool.and_eq_true, decide_eq_true_eq]
        constructor
        · intro h1in
          rcases hinc2 with h | h
          · exact hnidnot (h ▸ h1in)
          · have hadj : s0.adjB nd.nid e.1 = true := by
              unfold Skeleton.adjB
              rw [List.any_eq_true]
              exact ⟨e, he, by simp [h]⟩
            exact hknot e.1 h1in (Relation.ReflTransGen.single hadj)
        · intro h2in
          rcases hinc2 with h | h
          · have hadj : s0.adjB nd.nid e.2 = true := by
              unfold Skeleton.adjB
              rw [List.any_eq_true]
              exact ⟨e, he, by simp [h]⟩
            exact hknot e.2 h2in (Relation.ReflTransGen.single hadj)
          · exact hnidnot (h ▸ h2in)

theorem trimLoop_reach (t : ℚ) :
    ∀ (f : Nat) (s : Skeleton), s.Valid →
      ∀ v ∈ s.nodes, ∃ w ∈ (trimLoop t f s).nodes, Reach s v.nid w.nid := by
  intro f
  induction f with
  | zero => exact fun s _ v hvm => ⟨v, hvm, Reach.refl_self s v.nid⟩
  | succ f ih =>
    intro s hv v hvm
    rw [trimLoop]
    cases hstep : trimStep s t with
    | none => exact ⟨v, hvm, Reach.refl_self s v.nid⟩
    | some s2 =>
      obtain ⟨res, heq, -, bp, hbpnot, hbdeg, hres⟩ := trimStep_some s t s2 hstep
      subst heq
      have hv2 : (removeNodes s res).Valid := removeNodes_valid s res hv
      by_cases hvin : v.nid ∈ res
      · have hrvbp : Reach s v.nid bp := hres _ hvin
        have hbpid : bp ∈ s.nodeIds := mem_nodeIds_of_degree_pos s hv bp (by omega)
        obtain ⟨w0, hw0, hw0id⟩ := List.mem_map.1 hbpid
        have hw0in : w0 ∈ (removeNodes s res).nodes :=
          List.mem_filter.2 ⟨hw0, by simp [hw0id, hbpnot]⟩
        obtain ⟨w, hwmem, hwreach⟩ := ih (removeNodes s res) hv2 w0 hw0in
        refine ⟨w, hwmem, ?_⟩
        have h5 : Reach s w0.nid w.nid :=
          Reach_mono (removeNodes_edges_sublist s res) _ _ hwreach
        rw [hw0id] at h5
        exact hrvbp.trans h5
      · have hvin2 : v ∈ (removeNodes s res).nodes :=
          List.mem_filter.2 ⟨hvm, by simp [hvin]⟩
        obtain ⟨w, hwmem, hwreach⟩ := ih _ hv2 v hvin2
        exact ⟨w, hwmem, Reach_mono (removeNodes_edges_sublist s res) _ _ hwreach⟩

theorem unionNodes_nil (frags : List Skeleton) (h : ∀ f ∈ frags, f.nodes = []) :
    unionNodes frags = [] := by
  unfold unionNodes
  rw [List.flatMap_eq_nil_iff]
  intro ks hks
  have h2 : ks.2 ∈ frags := by
    have h3 := List.mem_map_of_mem Prod.snd hks
    rwa [List.enum_map_snd] at h3
  rw [h ks.2 h2]
  rfl

theorem unionEdges_nil (frags : List Skeleton) (h : ∀ f ∈ frags, f.edges = []) :
    unionEdges frags = [] := by
  unfold unionEdges
  rw [List.flatMap_eq_nil_iff]
  intro ks hks
  have h2 : ks.2 ∈ frags := by
    have h3 := List.mem_map_of_mem Prod.snd hks
    rwa [List.enum_map_snd] at h3
  rw [h ks.2 h2]
  rfl

theorem merge_ok_elim (eps : ℚ) (frags : List Skeleton) (out : Skeleton)
    (h : merge_skeletons eps frags = .ok out) :
    out = { objectId := (frags.head?.map Skeleton.objectId).getD 0,
            nodes := mergedNodes eps (unionNodes frags),
            edges := mergedEdges eps frags (unionNodes frags) } := by
  unfold merge_skeletons at h
  split at h
  · exact absurd h (by simp)
  · rw [Except.ok.injEq] at h
    exact h.symm

theorem goodEdge_normEdge (ids : List Nat) (a b : Nat) (hne : a ≠ b)
    (ha : a ∈ ids) (hb : b ∈ ids) : goodEdge ids (normEdge (a, b)) = true := by
  unfold normEdge goodEdge
  by_cases h : a ≤ b
  · rw [if_pos h]
    simp only [Bool.and_eq_true, decide_eq_true_eq]
    exact ⟨⟨by omega, ha⟩, hb⟩
  · rw [if_neg h]
    simp only [Bool.and_eq_true, decide_eq_true_eq]
    exact ⟨⟨by omega, hb⟩, ha⟩

theorem reprM_mem_mergedIds (eps : ℚ) (ns : List MNode) {p : Nat} (hp : p < ns.length) :
    reprM eps ns p ∈ (mergedNodes eps ns).map Node.nid := by
  rw [mergedNodes_nodeIds]
  refine List.mem_filter.2 ⟨List.mem_range.2 (reprM_lt eps ns hp), ?_⟩
  simp [reprM_idem eps ns hp]

theorem mergedEdges_mem (eps : ℚ) (frags : List Skeleton) (e : Nat × Nat)
    (he : e ∈ unionEdges frags)
    (hne : reprM eps (unionNodes frags) e.1 ≠ reprM eps (unionNodes frags) e.2) :
    normEdge (reprM eps (unionNodes frags) e.1, reprM eps (unionNodes frags) e.2) ∈
      mergedEdges eps frags (unionNodes frags) := by
  obtain ⟨h1, h2⟩ := unionEdges_lt frags e he
  unfold mergedEdges
  refine (mem_mkEdges _ _ _).2 ⟨?_, ?_⟩
  · exact goodEdge_normEdge _ _ _ hne
      (reprM_mem_mergedIds eps (unionNodes frags) h1)
      (reprM_mem_mergedIds eps (unionNodes frags) h2)
  · exact ⟨(reprM eps (unionNodes frags) e.1, reprM eps (unionNodes frags) e.2),
      List.mem_map.2 ⟨e, he, rfl⟩, rfl⟩

/- ## Claim theorems -/

/-- C1: Determinism of skeletonization — two calls of `skeletonize` on
identical mask and config yield equal Skeletons.  In this model the
farthest-voxel selection (`argmaxQ`) breaks ties by the fixed total order of
ascending linear voxel index, and the whole pipeline is a pure function of
its inputs, so equal inputs give byte-identical node and edge sets. -/
theorem skeletonize_deterministic (m1 m2 : VoxelMask) (cfg1 cfg2 : SkelConfig)
    (hm : m1 = m2) (hc : cfg1 = cfg2) : skeletonize m1 cfg1 = skeletonize m2 cfg2 := by
  subst hm
  subst hc
  rfl

theorem skeletonize_deterministic_witness :
    skeletonize exM1 exCfg = skeletonize exM1 exCfg :=
  skeletonize_deterministic exM1 exM1 exCfg exCfg rfl rfl

/-- C2: Edge-validity invariant — every Skeleton returned by `skeletonize`,
`crop_skeleton`, `merge_skeletons` or `trim_skeleton` satisfies `Valid`:
every edge endpoint id references an existing node, edges are stored strictly
normalized (so no self-loops and each unordered pair appears at most once),
and node ids are unique.  For crop and trim, which transform a caller-supplied
skeleton in place, the input skeleton is assumed valid. -/
theorem edge_validity :
    (∀ (m : VoxelMask) (cfg : SkelConfig) (s : Skeleton),
        skeletonize m cfg = .ok s → s.Valid) ∧
    (∀ (s : Skeleton) (cb gb : Bounds) (mg : Nat), s.Valid →
        (crop_skeleton s cb gb mg).Valid) ∧
    (∀ (eps : ℚ) (frags : List Skeleton) (out : Skeleton),
        merge_skeletons eps frags = .ok out → out.Valid) ∧
    (∀ (s : Skeleton) (t : ℚ), s.Valid → (trim_skeleton s t).Valid) :=
  ⟨skeletonize_ok_valid,
   fun s cb gb mg hv => crop_skeleton_valid s cb gb mg hv,
   merge_skeletons_ok_valid,
   fun s t hv => trim_skeleton_valid s t hv⟩

theorem edge_validity_witness :
    emptySkel.Valid ∧ (crop_skeleton exSkel exCb exGb 1).Valid ∧
    exMergeOut.Valid ∧ (trim_skeleton exSkel 3).Valid :=
  ⟨edge_validity.1 exM0 exCfg emptySkel rfl,
   edge_validity.2.1 exSkel exCb exGb 1 (by decide),
   edge_validity.2.2.1 0 [exFragA, exFragB] exMergeOut rfl,
   edge_validity.2.2.2 exSkel 3 (by decide)⟩

/-- C3: Idempotence of trimming — `trim(trim(S, t), t) = trim(S, t)` for
every skeleton `S` and threshold `t`: the first trim runs to the fixed point
where no terminal branch below the threshold remains, so the second trim
finds nothing to remove. -/
theorem trim_idempotent (s : Skeleton) (t : ℚ) :
    trim_skeleton (trim_skeleton s t) t = trim_skeleton s t :=
  trimLoop_of_none t _ _ (trimLoop_post t s.nodes.length s le_rfl)

/-- C4: Crop contract — no node of the cropped Skeleton lies within `margin`
voxels of an interior seam face (every face it is close to is a true
global-volume-boundary face), and every input node that is within `margin`
of only global-boundary faces is preserved unchanged in the output. -/
theorem crop_contract (s : Skeleton) (cb gb : Bounds) (mg : Nat) :
    (∀ nd ∈ (crop_skeleton s cb gb mg).nodes, ∀ fc : Face,
        withinFace cb mg nd fc = true → globalFace cb gb fc = true) ∧
    (∀ nd ∈ s.nodes,
        (∀ fc : Face, withinFace cb mg nd fc = true → globalFace cb gb fc = true) →
        nd ∈ (crop_skeleton s cb gb mg).nodes) := by
  constructor
  · intro nd hnd
    have h := (crop_nodes_mem s cb gb mg nd).1 hnd
    exact (nearSeam_eq_false_iff cb gb mg nd).1 h.2
  · intro nd hnd h
    exact (crop_nodes_mem s cb gb mg nd).2 ⟨hnd, (nearSeam_eq_false_iff cb gb mg nd).2 h⟩

theorem crop_contract_witness :
    globalFace exCb exGb Face.xlo = true ∧
    (⟨0, 0, 0, 0, 1⟩ : Node) ∈ (crop_skeleton exSkel exCb exGb 1).nodes :=
  ⟨(crop_contract exSkel exCb exGb 1).1 ⟨0, 0, 0, 0, 1⟩ (by decide) Face.xlo (by decide),
   (crop_contract exSkel exCb exGb 1).2 ⟨0, 0, 0, 0, 1⟩ (by decide) (by decide)⟩

/-- C5: Merge node deduplication — for every pair of union nodes from
different fragments whose coordinates are within the configured epsilon, the
two nodes are coalesced into a single output node (they share a coalescing
representative); that node's radius is the maximum of the radius estimates of
the nodes coalesced into it — in particular at least each of the two, and
attained by one of them — and every union edge referencing either node is
rewritten to reference the coalesced representative, the rewritten edge
surviving into the output whenever it does not collapse into a self-loop. -/
theorem merge_dedup (eps : ℚ) (frags : List Skeleton) (out : Skeleton) (pu qv : Nat)
    (hok : merge_skeletons eps frags = .ok out)
    (hpu : pu < (unionNodes frags).length) (hqv : qv < (unionNodes frags).length)
    (hfrag : (mnodeAt (unionNodes frags) pu).frag ≠ (mnodeAt (unionNodes frags) qv).frag)
    (hdist : mdist (mnodeAt (unionNodes frags) pu) (mnodeAt (unionNodes frags) qv) ≤ eps) :
    reprM eps (unionNodes frags) qv = reprM eps (unionNodes frags) pu ∧
    (∃ w ∈ out.nodes, w.nid = reprM eps (unionNodes frags) pu ∧
      (mnodeAt (unionNodes frags) pu).mrad ≤ w.radius ∧
      (mnodeAt (unionNodes frags) qv).mrad ≤ w.radius ∧
      w.radius = clusterRadius eps (unionNodes frags) (reprM eps (unionNodes frags) pu) ∧
      ∃ q ∈ clusterOf eps (unionNodes frags) (reprM eps (unionNodes frags) pu),
        w.radius = (mnodeAt (unionNodes frags) q).mrad) ∧
    (∀ e ∈ unionEdges frags,
      (e.1 = pu ∨ e.1 = qv →
        reprM eps (unionNodes frags) e.1 = reprM eps (unionNodes frags) pu) ∧
      (e.2 = pu ∨ e.2 = qv →
        reprM eps (unionNodes frags) e.2 = reprM eps (unionNodes frags) pu) ∧
      (reprM eps (unionNodes frags) e.1 ≠ reprM eps (unionNodes frags) e.2 →
        normEdge (reprM eps (unionNodes frags) e.1, reprM eps (unionNodes frags) e.2) ∈
          out.edges)) := by
  have hpq : pu ≠ qv := by
    intro h
    rw [h] at hfrag
    exact hfrag rfl
  have hadj : adjM eps (unionNodes frags) pu qv = true := by
    unfold adjM
    simp only [Bool.and_eq_true, decide_eq_true_eq]
    exact ⟨⟨⟨⟨hpq, hpu⟩, hqv⟩, hfrag⟩, hdist⟩
  have hrepr : reprM eps (unionNodes frags) qv = reprM eps (unionNodes frags) pu :=
    reprM_eq_of_adj eps (unionNodes frags) hadj
  have hre := merge_ok_elim eps frags out hok
  have hrlt : reprM eps (unionNodes frags) pu < (unionNodes frags).length :=
    reprM_lt eps (unionNodes frags) hpu
  have hridem : reprM eps (unionNodes frags) (reprM eps (unionNodes frags) pu) =
      reprM eps (unionNodes frags) pu := reprM_idem eps (unionNodes frags) hpu
  have hrcl : reprM eps (unionNodes frags) pu ∈
      clusterOf eps (unionNodes frags) (reprM eps (unionNodes frags) pu) :=
    (mem_clusterOf eps (unionNodes frags) _ _).2 ⟨hrlt, hridem⟩
  refine ⟨hrepr, ?_, ?_⟩
  · refine ⟨mergedNodeOf eps (unionNodes frags) (reprM eps (unionNodes frags) pu),
      ?_, rfl, ?_, ?_, rfl, ?_⟩
    · rw [hre]
      exact mem_mergedNodes_of_repr eps (unionNodes frags) _ hridem hrlt
    · exact radius_le_clusterRadius eps (unionNodes frags) _ pu
        ((mem_clusterOf eps (unionNodes frags) _ pu).2 ⟨hpu, rfl⟩)
    · exact radius_le_clusterRadius eps (unionNodes frags) _ qv
        ((mem_clusterOf eps (unionNodes frags) _ qv).2 ⟨hqv, hrepr⟩)
    · exact clusterRadius_attained eps (unionNodes frags) _ hrcl
  · intro e he
    refine ⟨?_, ?_, ?_⟩
    · rintro (h | h)
      · rw [h]
      · rw [h]
        exact hrepr
    · rintro (h | h)
      · rw [h]
      · rw [h]
        exact hrepr
    · intro hne
      rw [hre]
      exact mergedEdges_mem eps frags e he hne

theorem merge_dedup_witness :
    reprM 0 (unionNodes [exFragA, exFragB]) 2 = reprM 0 (unionNodes [exFragA, exFragB]) 1 :=
  (merge_dedup 0 [exFragA, exFragB] exMergeOut 1 2 rfl (by decide) (by decide)
    (by decide) (by decide)).1

/-- C6: Trim preserves branch-point-free components — in a valid skeleton,
every node whose connected component contains no node of degree 3 or more is
kept by trim with its incident edges intact, whatever the threshold; trim
only ever removes nodes (it adds none); and trim never removes a component
entirely: every input node can still reach some surviving output node. -/
theorem trim_branchfree (s : Skeleton) (t : ℚ) (hv : s.Valid) :
    (∀ nd ∈ s.nodes, (∀ w, Reach s nd.nid w → s.degreeOf w ≤ 2) →
        nd ∈ (trim_skeleton s t).nodes ∧
        (∀ e ∈ s.edges, (e.1 = nd.nid ∨ e.2 = nd.nid) → e ∈ (trim_skeleton s t).edges)) ∧
    (∀ nd ∈ (trim_skeleton s t).nodes, nd ∈ s.nodes) ∧
    (∀ nd ∈ s.nodes, ∃ w ∈ (trim_skeleton s t).nodes, Reach s nd.nid w.nid) := by
  refine ⟨?_, ?_, ?_⟩
  · intro nd hnd H
    exact trimLoop_untouched t s nd H s.nodes.length s (List.Sublist.refl _) hnd
      (fun e he _ => he)
  · intro nd hnd
    exact (trimLoop_nodes_sublist t s.nodes.length s).mem hnd
  · intro nd hnd
    exact trimLoop_reach t s.nodes.length s hv nd hnd

theorem trim_branchfree_witness :
    (⟨0, 3, 3, 3, 1⟩ : Node) ∈ (trim_skeleton exNode1 5).nodes ∧
    ∃ w ∈ (trim_skeleton exNode1 5).nodes, Reach exNode1 0 w.nid := by
  have h := trim_branchfree exNode1 5 (by decide)
  have H : ∀ w, Reach exNode1 (0 : Nat) w → exNode1.degreeOf w ≤ 2 := by
    intro w hw
    have hw0 : w = 0 := by
      induction hw with
      | refl => rfl
      | tail _ hstep ih => exact absurd hstep (by simp [exNode1, Skeleton.adjB])
    subst hw0
    decide
  exact ⟨(h.1 ⟨0, 3, 3, 3, 1⟩ (by decide) H).1, h.2.2 ⟨0, 3, 3, 3, 1⟩ (by decide)⟩

/-- C7: Empty-input behaviour — a valid mask with no foreground voxels
skeletonizes to the empty Skeleton (zero nodes, zero edges) rather than an
error; crop and trim of an empty Skeleton return an empty Skeleton; and
merging a sequence consisting only of empty fragments (with one shared object
id) succeeds and returns an empty final Skeleton. -/
theorem empty_input_behaviour :
    (∀ (m : VoxelMask) (cfg : SkelConfig), m.isValid = true → fgIdxs m = [] →
        skeletonize m cfg = .ok emptySkel) ∧
    (∀ (s : Skeleton) (cb gb : Bounds) (mg : Nat), s.nodes = [] → s.edges = [] →
        (crop_skeleton s cb gb mg).nodes = [] ∧ (crop_skeleton s cb gb mg).edges = []) ∧
    (∀ (s : Skeleton) (t : ℚ), s.nodes = [] → s.edges = [] → trim_skeleton s t = s) ∧
    (∀ (eps : ℚ) (frags : List Skeleton),
        (∀ f ∈ frags, f.nodes = [] ∧ f.edges = []) →
        (∀ f ∈ frags, ∀ g ∈ frags, f.objectId = g.objectId) →
        ∃ out, merge_skeletons eps frags = .ok out ∧ out.nodes = [] ∧ out.edges = []) := by
  refine ⟨skeletonize_empty, ?_, ?_, ?_⟩
  · intro s cb gb mg hn he
    constructor
    · show s.nodes.filter _ = []
      rw [hn]
      rfl
    · show mkEdges _ s.edges = []
      rw [he]
      exact mkEdges_nil _
  · intro s t hn he
    exact trim_of_no_edges s t he
  · intro eps frags hempty hoid
    have hm : oidMismatch frags = false := by
      rw [← Bool.not_eq_true, oidMismatch_iff]
      push_neg
      exact hoid
    refine ⟨_, merge_skeletons_ok eps frags hm, ?_, ?_⟩
    · show mergedNodes eps (unionNodes frags) = []
      rw [unionNodes_nil frags (fun f hf => (hempty f hf).1)]
      rfl
    · show mergedEdges eps frags (unionNodes frags) = []
      unfold mergedEdges
      rw [unionEdges_nil frags (fun f hf => (hempty f hf).2)]
      rfl

theorem empty_input_behaviour_witness :
    skeletonize exM0 exCfg = .ok emptySkel ∧
    ((crop_skeleton emptySkel exCb exGb 1).nodes = [] ∧
      (crop_skeleton emptySkel exCb exGb 1).edges = []) ∧
    trim_skeleton emptySkel 3 = emptySkel ∧
    (∃ out, merge_skeletons 0 [exFragC, exFragC] = .ok out ∧
      out.nodes = [] ∧ out.edges = []) :=
  ⟨empty_input_behaviour.1 exM0 exCfg (by decide) (by decide),
   empty_input_behaviour.2.1 emptySkel exCb exGb 1 rfl rfl,
   empty_input_behaviour.2.2.1 emptySkel 3 rfl rfl,
   empty_input_behaviour.2.2.2 0 [exFragC, exFragC] (by decide) (by decide)⟩

/-- C8: Single-voxel behaviour — a valid mask whose foreground is exactly one
voxel skeletonizes to a Skeleton with exactly one node and zero edges, and
trimming that Skeleton with any threshold returns it unchanged (it has no
branch point). -/
theorem single_voxel_behaviour (m : VoxelMask) (cfg : SkelConfig) (t : ℚ) (v : Nat)
    (hval : m.isValid = true) (hfg : fgIdxs m = [v]) :
    ∃ s, skeletonize m cfg = .ok s ∧ s.nodes.length = 1 ∧ s.edges = [] ∧
      trim_skeleton s t = s := by
  refine ⟨_, skeletonize_single m cfg v hval hfg, rfl, rfl, ?_⟩
  exact trim_of_no_edges _ t rfl

theorem single_voxel_behaviour_witness :
    ∃ s, skeletonize exM1 exCfg = .ok s ∧ s.nodes.length = 1 ∧ s.edges = [] ∧
      trim_skeleton s 9 = s :=
  single_voxel_behaviour exM1 exCfg 9 0 (by decide) (by decide)

/-- C9: Merge object-id check — merging fragments that reference more than
one distinct object id fails with `ObjectMismatchError`, and merging succeeds
(returns some Skeleton) whenever all fragments carry the same object id. -/
theorem merge_object_id_check (eps : ℚ) (frags : List Skeleton) :
    ((∃ f ∈ frags, ∃ g ∈ frags, f.objectId ≠ g.objectId) →
        merge_skeletons eps frags = .error .ObjectMismatchError) ∧
    ((∀ f ∈ frags, ∀ g ∈ frags, f.objectId = g.objectId) →
        ∃ out, merge_skeletons eps frags = .ok out) := by
  constructor
  · intro h
    exact merge_skeletons_err eps frags ((oidMismatch_iff frags).2 h)
  · intro h
    have hm : oidMismatch frags = false := by
      rw [← Bool.not_eq_true, oidMismatch_iff]
      push_neg
      exact h
    exact ⟨_, merge_skeletons_ok eps frags hm⟩

theorem merge_object_id_check_witness :
    merge_skeletons 0 [exFragA, exFragC] = .error .ObjectMismatchError ∧
    ∃ out, merge_skeletons 0 [exFragA, exFragB] = .ok out :=
  ⟨(merge_object_id_check 0 [exFragA, exFragC]).1
      ⟨exFragA, by decide, exFragC, by decide, by decide⟩,
   (merge_object_id_check 0 [exFragA, exFragB]).2 (by decide)⟩

/-- C10: Invalid-mask rejection — `skeletonize` applied to an invalid mask
(zero-sized shape, data length inconsistent with the 3D shape, or
non-boolean/non-label content) fails with `InvalidInputError` and produces no
skeleton output. -/
theorem skeletonize_invalid_rejected (m : VoxelMask) (cfg : SkelConfig)
    (h : m.isValid = false) :
    skeletonize m cfg = .error .InvalidInputError ∧ ∀ s, skeletonize m cfg ≠ .ok s := by
  refine ⟨skeletonize_invalid_mask m cfg h, ?_⟩
  intro s hs
  rw [skeletonize_invalid_mask m cfg h] at hs
  exact absurd hs (by simp)

theorem skeletonize_invalid_rejected_witness :
    skeletonize exMbad exCfg = .error .InvalidInputError ∧
    ∀ s, skeletonize exMbad exCfg ≠ .ok s :=
  skeletonize_invalid_rejected exMbad exCfg (by decide)
